import Mathlib

/-!
# Verification of the Go data-collection pipeline (go-ai-model-trainer.py)

This file gives a shallow embedding, over `List Char` / `String`, of the text
transformations and control loops of the trainer script, and proves or refutes
the frozen claims about them.

Conventions:
* Python strings are modelled as `List Char` (via `String.data`).
* `pyIsSpace` models both Python's regex class `\s` and `str.strip`'s
  whitespace set (the common Unicode whitespace characters).
* Regex substitutions are modelled by explicit one-pass scanners that
  reproduce the leftmost, non-overlapping semantics of `re.sub` for the
  concrete patterns used by the script; each scanner is documented against
  its pattern.
-/

/-- Whitespace set used by Python's `str.strip` and the regex class `\s`
(Unicode whitespace as relevant here). -/
def pyIsSpace (c : Char) : Bool :=
  c = ' ' || c = '\t' || c = '\n' || c = '\r' || c = '\x0b' || c = '\x0c' ||
  c = '\x1c' || c = '\x1d' || c = '\x1e' || c = '\x1f' || c = '\x85' || c = '\xa0' ||
  c = '\u1680' || (decide ('\u2000' ≤ c) && decide (c ≤ '\u200a')) ||
  c = '\u2028' || c = '\u2029' || c = '\u202f' || c = '\u205f' || c = '\u3000'

/-- `headIs b l`: `l` starts with the character `b`. -/
def headIs (b : Char) : List Char → Bool
  | [] => false
  | c :: _ => c = b

/-- `hasPair a b l`: somewhere in `l` the character `a` is immediately
followed by `b` (i.e. the two-character string `ab` occurs in `l`). -/
def hasPair (a b : Char) : List Char → Bool
  | [] => false
  | c :: r => (c = a && headIs b r) || hasPair a b r

/-- `hasBlock l`: `l` contains a complete block comment, i.e. an occurrence
of the opener two-character marker (slash-star) with the closer marker
(star-slash) somewhere after it, not overlapping the opener. -/
def hasBlock : List Char → Bool
  | [] => false
  | c :: r => (c = '/' && headIs '*' r && hasPair '*' '/' r.tail) || hasBlock r

/-- Scanning through non-newline whitespace only, do we reach a newline? -/
def wsThenNl : List Char → Bool
  | [] => false
  | c :: r => if c = '\n' then true else if pyIsSpace c then wsThenNl r else false

/-- `hasNlWsNl l`: `l` contains a newline, followed (through whitespace only,
none of it a newline) by another newline — i.e. `l` contains a blank line. -/
def hasNlWsNl : List Char → Bool
  | [] => false
  | c :: r => (c = '\n' && wsThenNl r) || hasNlWsNl r

/-- Like `wsThenNl`, but returns the remainder after the found newline. -/
def wsThenNlRest : List Char → Option (List Char)
  | [] => none
  | c :: r => if c = '\n' then some r else if pyIsSpace c then wsThenNlRest r else none

/-- `hasTwoBlankLines l`: `l` contains two consecutive blank lines, i.e.
a newline, then (through non-newline whitespace) a second newline, then
(through non-newline whitespace) a third newline. -/
def hasTwoBlankLines : List Char → Bool
  | [] => false
  | c :: r =>
    (c = '\n' && (match wsThenNlRest r with | some r2 => wsThenNl r2 | none => false))
      || hasTwoBlankLines r

/-!
## Stage 1 of clean_go_code: line-comment removal

Models the regex substitution with pattern slash-slash followed by `.*$`
under MULTILINE: on each line, everything from the first slash-slash marker
up to (but not including) the line's newline is deleted.  The scanner's
Boolean state is "currently deleting until end of line".
-/

def rlcGo : List Char → Bool → List Char
  | [], _ => []
  | c :: rest, true => if c = '\n' then '\n' :: rlcGo rest false else rlcGo rest true
  | c :: rest, false =>
      if c = '/' && headIs '/' rest then rlcGo rest true
      else c :: rlcGo rest false

/-- `re.sub(r'//.*$', '', code, flags=re.MULTILINE)` -/
def removeLineComments (l : List Char) : List Char := rlcGo l false

/-!
## Stage 2: block-comment removal

Models the substitution with pattern slash-star `.*?` star-slash under
DOTALL: every shortest span from an opener to the next closer is deleted,
scanning left to right; an opener with no closer anywhere after it is kept
verbatim (no match starts at or after it).

State machine: `noC` = outside comments; `opening` = just consumed the
opener's slash (next char is the opener's star); `inC buf star` = inside a
candidate comment whose consumed text (reversed) is `buf`, where `star`
records whether the previously consumed character was a star (the opener's
own star does not count, matching the regex: the closer cannot overlap the
opener).  If the input ends inside a candidate comment, the consumed text is
emitted verbatim (the regex finds no match there).
-/

inductive BState where
  | noC : BState
  | opening : BState
  | inC : List Char → Bool → BState

def rbcGo : List Char → BState → List Char
  | [], .noC => []
  | [], .opening => ['/']
  | [], .inC buf _ => buf.reverse
  | c :: rest, .noC =>
      if c = '/' && headIs '*' rest then rbcGo rest .opening
      else c :: rbcGo rest .noC
  | c :: rest, .opening => rbcGo rest (.inC [c, '/'] false)
  | c :: rest, .inC buf star =>
      if c = '/' && star then rbcGo rest .noC
      else rbcGo rest (.inC (c :: buf) (c = '*'))

/-- `re.sub(r'/\*.*?\*/', '', code, flags=re.DOTALL)` -/
def removeBlockComments (l : List Char) : List Char := rbcGo l .noC

/-!
## Stage 3: blank-line collapsing

Models `re.sub(r'\n\s*\n', '\n', code)`.  With a greedy `\s*`, the leftmost
match starting at a newline extends exactly to the last newline reachable
from it through whitespace, and is replaced by a single newline; scanning
resumes after the match.  Equivalently, single pass: after emitting a
newline, buffer subsequent non-newline whitespace; a further newline
discards the buffer (those characters are inside the match); a non-space
character flushes the buffer (those characters trail the last newline and
are outside the match).
-/

def collapseGo : List Char → Option (List Char) → List Char
  | [], none => []
  | [], some buf => buf.reverse
  | c :: rest, none =>
      if c = '\n' then '\n' :: collapseGo rest (some [])
      else c :: collapseGo rest none
  | c :: rest, some buf =>
      if c = '\n' then collapseGo rest (some [])
      else if pyIsSpace c then collapseGo rest (some (c :: buf))
      else buf.reverse ++ c :: collapseGo rest none

/-- `re.sub(r'\n\s*\n', '\n', code)` -/
def collapseBlank (l : List Char) : List Char := collapseGo l none

/-- Python `str.strip()`: drop leading and trailing whitespace. -/
def pyStrip (l : List Char) : List Char :=
  ((l.dropWhile pyIsSpace).reverse.dropWhile pyIsSpace).reverse

/-- `GoDataProcessor.clean_go_code`, on character lists: remove line
comments, then block comments, then collapse blank-line runs, then strip. -/
def cleanCode (l : List Char) : List Char :=
  pyStrip (collapseBlank (removeBlockComments (removeLineComments l)))

/-- `GoDataProcessor.clean_go_code`. -/
def clean_go_code (s : String) : String := ⟨cleanCode s.data⟩

/-!
## Monotonicity helpers

The occurrence predicates are false on a list only if false on every tail,
suffix, and prefix; conversely a true occurrence survives extension on
either side.
-/

theorem hasPair_tail {a b c : Char} {r : List Char}
    (h : hasPair a b (c :: r) = false) : hasPair a b r = false := by
  simp only [hasPair, Bool.or_eq_false_iff] at h
  exact h.2

theorem hasPair_append_right {a b : Char} {t l : List Char}
    (h : hasPair a b (t ++ l) = false) : hasPair a b l = false := by
  induction t with
  | nil => exact h
  | cons c t ih => exact ih (hasPair_tail h)

theorem hasPair_cons_of {a b c : Char} {r : List Char}
    (h : hasPair a b r = true) : hasPair a b (c :: r) = true := by
  simp only [hasPair, Bool.or_eq_true]
  exact Or.inr h

theorem headIs_append_of {b : Char} {l t : List Char}
    (h : headIs b l = true) : headIs b (l ++ t) = true := by
  cases l with
  | nil => simp [headIs] at h
  | cons c r => exact h

theorem hasPair_append_of {a b : Char} {l t : List Char}
    (h : hasPair a b l = true) : hasPair a b (l ++ t) = true := by
  induction l with
  | nil => simp [hasPair] at h
  | cons c r ih =>
    simp only [hasPair, Bool.or_eq_true, Bool.and_eq_true] at h ⊢
    rcases h with ⟨hc, hh⟩ | h
    · exact Or.inl ⟨hc, headIs_append_of hh⟩
    · exact Or.inr (ih h)

theorem hasPair_append_left {a b : Char} {l t : List Char}
    (h : hasPair a b (l ++ t) = false) : hasPair a b l = false := by
  cases hl : hasPair a b l with
  | false => rfl
  | true => simp [hasPair_append_of hl] at h

theorem hasBlock_tail {c : Char} {r : List Char}
    (h : hasBlock (c :: r) = false) : hasBlock r = false := by
  simp only [hasBlock, Bool.or_eq_false_iff] at h
  exact h.2

theorem hasBlock_append_right {t l : List Char}
    (h : hasBlock (t ++ l) = false) : hasBlock l = false := by
  induction t with
  | nil => exact h
  | cons c t ih => exact ih (hasBlock_tail h)

theorem hasBlock_append_of {l t : List Char}
    (h : hasBlock l = true) : hasBlock (l ++ t) = true := by
  induction l with
  | nil => simp [hasBlock] at h
  | cons c r ih =>
    simp only [hasBlock, Bool.or_eq_true, Bool.and_eq_true] at h ⊢
    rcases h with ⟨⟨hc, hh⟩, hp⟩ | h
    · refine Or.inl ⟨⟨hc, headIs_append_of hh⟩, ?_⟩
      cases r with
      | nil => simp [headIs] at hh
      | cons x r2 => exact hasPair_append_of hp
    · exact Or.inr (ih h)

theorem hasBlock_append_left {l t : List Char}
    (h : hasBlock (l ++ t) = false) : hasBlock l = false := by
  cases hl : hasBlock l with
  | false => rfl
  | true => simp [hasBlock_append_of hl] at h

theorem wsThenNl_append_of {l t : List Char}
    (h : wsThenNl l = true) : wsThenNl (l ++ t) = true := by
  induction l with
  | nil => simp [wsThenNl] at h
  | cons c r ih =>
    simp only [wsThenNl] at h ⊢
    split at h
    · simp_all
    · split at h
      · simp_all
      · exact absurd h (by simp)

theorem hasNlWsNl_tail {c : Char} {r : List Char}
    (h : hasNlWsNl (c :: r) = false) : hasNlWsNl r = false := by
  simp only [hasNlWsNl, Bool.or_eq_false_iff] at h
  exact h.2

theorem hasNlWsNl_append_right {t l : List Char}
    (h : hasNlWsNl (t ++ l) = false) : hasNlWsNl l = false := by
  induction t with
  | nil => exact h
  | cons c t ih => exact ih (hasNlWsNl_tail h)

theorem hasNlWsNl_append_of {l t : List Char}
    (h : hasNlWsNl l = true) : hasNlWsNl (l ++ t) = true := by
  induction l with
  | nil => simp [hasNlWsNl] at h
  | cons c r ih =>
    simp only [hasNlWsNl, Bool.or_eq_true, Bool.and_eq_true] at h ⊢
    rcases h with ⟨hc, hw⟩ | h
    · exact Or.inl ⟨hc, wsThenNl_append_of hw⟩
    · exact Or.inr (ih h)

theorem hasNlWsNl_append_left {l t : List Char}
    (h : hasNlWsNl (l ++ t) = false) : hasNlWsNl l = false := by
  cases hl : hasNlWsNl l with
  | false => rfl
  | true => simp [hasNlWsNl_append_of hl] at h

/-!
## No line-comment marker survives `removeLineComments`
-/

theorem rlcGo_true_head (r : List Char) : headIs '/' (rlcGo r true) = false := by
  induction r with
  | nil => rfl
  | cons c rest ih =>
    simp only [rlcGo]
    split
    · simp [headIs]
    · exact ih

theorem rlcGo_false_head {r : List Char} (h : headIs '/' (rlcGo r false) = true) :
    headIs '/' r = true := by
  cases r with
  | nil => simp [rlcGo, headIs] at h
  | cons c rest =>
    simp only [rlcGo] at h
    split at h
    · next hc =>
      simp only [Bool.and_eq_true, decide_eq_true_eq] at hc
      simp [headIs, hc.1]
    · simpa [headIs] using h

theorem rlcGo_noPair : ∀ (r : List Char) (m : Bool), hasPair '/' '/' (rlcGo r m) = false := by
  intro r
  induction r with
  | nil => intro m; cases m <;> rfl
  | cons c rest ih =>
    intro m
    cases m with
    | true =>
      simp only [rlcGo]
      split
      · simp only [hasPair, Bool.or_eq_false_iff]
        refine ⟨by simp [rlcGo_true_head], ?_⟩
        · exact ih false
      · exact ih true
    | false =>
      simp only [rlcGo]
      split
      · exact ih true
      · next hcond =>
        simp only [hasPair, Bool.or_eq_false_iff]
        refine ⟨?_, ih false⟩
        cases hh : headIs '/' (rlcGo rest false) with
        | false => simp [hh]
        | true =>
          have h2 := rlcGo_false_head hh
          by_cases hc : c = '/'
          · exact absurd (by simp [hc, h2]) hcond
          · simp [hc]

theorem removeLineComments_noPair (l : List Char) :
    hasPair '/' '/' (removeLineComments l) = false :=
  rlcGo_noPair l false

/-!
## `removeBlockComments` preserves absence of the line-comment marker

State invariant: the virtual remaining input (buffered candidate-comment
text plus the rest of the input) is free of the marker.
-/

theorem rbcGo_noC_headSlash {r : List Char} (h : headIs '/' (rbcGo r .noC) = true) :
    headIs '/' r = true := by
  cases r with
  | nil => simp [rbcGo, headIs] at h
  | cons c rest =>
    simp only [rbcGo] at h
    split at h
    · next hc =>
      simp only [Bool.and_eq_true, decide_eq_true_eq] at hc
      simp [headIs, hc.1]
    · simpa [headIs] using h

theorem rbcGo_noC_headStar {r : List Char} (hs : headIs '/' r = false)
    (h : headIs '*' (rbcGo r .noC) = true) : headIs '*' r = true := by
  cases r with
  | nil => simp [rbcGo, headIs] at h
  | cons c rest =>
    simp only [rbcGo] at h
    split at h
    · next hc =>
      simp only [Bool.and_eq_true, decide_eq_true_eq] at hc
      simp [headIs, hc.1] at hs
    · simpa [headIs] using h

def rbcInvDS : BState → List Char → Prop
  | .noC, l => hasPair '/' '/' l = false
  | .opening, l => hasPair '/' '/' ('/' :: l) = false
  | .inC buf _, l => hasPair '/' '/' (buf.reverse ++ l) = false

theorem rbcGo_noPair : ∀ (l : List Char) (st : BState), rbcInvDS st l →
    hasPair '/' '/' (rbcGo l st) = false := by
  intro l
  induction l with
  | nil =>
    intro st hst
    cases st with
    | noC => rfl
    | opening => simp [rbcGo, hasPair, headIs]
    | inC buf star =>
      simp only [rbcGo]
      simp only [rbcInvDS, List.append_nil] at hst
      exact hst
  | cons c rest ih =>
    intro st hst
    cases st with
    | noC =>
      simp only [rbcInvDS] at hst
      simp only [rbcGo]
      split
      · next hc =>
        apply ih .opening
        simp only [Bool.and_eq_true, decide_eq_true_eq] at hc
        obtain ⟨hc1, _⟩ := hc
        subst hc1
        simp only [rbcInvDS] at hst ⊢
        exact hst
      · next hc =>
        simp only [hasPair, Bool.or_eq_false_iff]
        refine ⟨?_, ih .noC (hasPair_tail hst)⟩
        cases hh : headIs '/' (rbcGo rest .noC) with
        | false => simp [hh]
        | true =>
          have h2 := rbcGo_noC_headSlash hh
          by_cases hc2 : c = '/'
          · exfalso
            have : hasPair '/' '/' (c :: rest) = true := by
              simp [hasPair, hc2, h2]
            simp [this] at hst
          · simp [hc2]
    | opening =>
      simp only [rbcGo]
      apply ih (.inC [c, '/'] false)
      simp only [rbcInvDS] at hst ⊢
      simpa only [List.reverse_cons, List.reverse_nil, List.nil_append, List.cons_append,
        List.append_assoc, List.singleton_append] using hst
    | inC buf star =>
      simp only [rbcGo]
      split
      · apply ih .noC
        simp only [rbcInvDS] at hst ⊢
        exact hasPair_tail (hasPair_append_right hst)
      · apply ih
        simp only [rbcInvDS] at hst ⊢
        simpa [List.append_assoc] using hst

theorem removeBlockComments_noPair {l : List Char}
    (h : hasPair '/' '/' l = false) :
    hasPair '/' '/' (removeBlockComments l) = false :=
  rbcGo_noPair l .noC h

/-!
## No complete block comment survives `removeBlockComments`

Invariant for the `inC` state: the buffer is the opener followed by `mid`,
the candidate comment text consumed so far, which contains no closer pair;
`star` records whether `mid` ends in a star.
-/

theorem headIs_append_nonempty {b : Char} {m t : List Char} (hm : m ≠ []) :
    headIs b (m ++ t) = headIs b m := by
  cases m with
  | nil => exact absurd rfl hm
  | cons x r => rfl

theorem hasPair_snoc_false {a b c : Char} {m : List Char}
    (h1 : hasPair a b m = false)
    (h2 : (headIs a m.reverse && decide (c = b)) = false) :
    hasPair a b (m ++ [c]) = false := by
  induction m with
  | nil => simp [hasPair, headIs]
  | cons x m' ih =>
    simp only [hasPair, Bool.or_eq_false_iff] at h1
    simp only [List.cons_append, hasPair, Bool.or_eq_false_iff]
    cases hm : m' with
    | nil =>
      subst hm
      refine ⟨?_, by simp [hasPair, headIs]⟩
      simpa [headIs] using h2
    | cons y m'' =>
      subst hm
      refine ⟨?_, ih h1.2 ?_⟩
      · simp only [List.cons_append, headIs]
        simpa only [headIs] using h1.1
      · rw [List.reverse_cons, headIs_append_nonempty (by simp)] at h2
        exact h2

theorem hasBlock_of_noPair {m : List Char} (h : hasPair '*' '/' m = false) :
    hasBlock m = false := by
  induction m with
  | nil => rfl
  | cons c r ih =>
    simp only [hasBlock, Bool.or_eq_false_iff]
    refine ⟨?_, ih (hasPair_tail h)⟩
    cases r with
    | nil => simp [headIs]
    | cons y r' =>
      cases hp : hasPair '*' '/' (y :: r').tail with
      | false => simp [hp]
      | true =>
        exfalso
        have : hasPair '*' '/' (c :: y :: r') = true :=
          hasPair_cons_of (hasPair_cons_of hp)
        simp [this] at h

def rbcInvB : BState → List Char → Prop
  | .noC, l => hasPair '/' '/' l = false
  | .opening, l => hasPair '/' '/' ('/' :: l) = false ∧ headIs '*' l = true
  | .inC buf star, l => hasPair '/' '/' (buf.reverse ++ l) = false ∧
      ∃ mid, buf = mid.reverse ++ ['*', '/'] ∧ hasPair '*' '/' mid = false ∧
        star = headIs '*' mid.reverse

theorem rbcGo_noBlock : ∀ (l : List Char) (st : BState), rbcInvB st l →
    hasBlock (rbcGo l st) = false := by
  intro l
  induction l with
  | nil =>
    intro st hst
    cases st with
    | noC => rfl
    | opening => decide
    | inC buf star =>
      obtain ⟨h1, mid, hb, hp, hs⟩ := hst
      subst hb
      simp only [rbcGo, List.reverse_append, List.reverse_reverse]
      show hasBlock ('/' :: '*' :: mid) = false
      simp only [hasBlock, Bool.or_eq_false_iff]
      refine ⟨by simp [headIs, hp], ?_, hasBlock_of_noPair hp⟩
      simp [headIs]
  | cons c rest ih =>
    intro st hst
    cases st with
    | noC =>
      simp only [rbcInvB] at hst
      simp only [rbcGo]
      split
      · next hc =>
        simp only [Bool.and_eq_true, decide_eq_true_eq] at hc
        obtain ⟨hc1, hc2⟩ := hc
        subst hc1
        exact ih .opening ⟨hst, hc2⟩
      · next hc =>
        simp only [hasBlock, Bool.or_eq_false_iff]
        refine ⟨?_, ih .noC (hasPair_tail hst)⟩
        by_cases hc2 : c = '/'
        · subst hc2
          have hs : headIs '/' rest = false := by
            simp only [hasPair, Bool.or_eq_false_iff, Bool.and_eq_false_iff] at hst
            rcases hst.1 with h | h
            · simp at h
            · exact h
          cases hh : headIs '*' (rbcGo rest .noC) with
          | false => simp [hh]
          | true =>
            exfalso
            exact hc (by simp [rbcGo_noC_headStar hs hh])
        · simp [hc2]
    | opening =>
      obtain ⟨h1, h2⟩ := hst
      simp only [headIs] at h2
      simp only [decide_eq_true_eq] at h2
      subst h2
      simp only [rbcGo]
      refine ih (.inC ['*', '/'] false) ?_
      simp only [rbcInvB]
      exact ⟨by simpa using h1, [], rfl, rfl, rfl⟩
    | inC buf star =>
      obtain ⟨h1, mid, hb, hp, hs⟩ := hst
      simp only [rbcGo]
      split
      · next hcl =>
        refine ih .noC ?_
        simp only [rbcInvB]
        exact hasPair_tail (hasPair_append_right h1)
      · next hcl =>
        refine ih (.inC (c :: buf) (decide (c = '*'))) ?_
        simp only [rbcInvB]
        refine ⟨?_, mid ++ [c], ?_, ?_, ?_⟩
        · simpa [List.append_assoc] using h1
        · simp [hb, List.reverse_append]
        · refine hasPair_snoc_false hp ?_
          by_cases hc2 : c = '/'
          · subst hc2
            simp only [Bool.and_eq_true, decide_eq_true_eq] at hcl
            cases hstar : star with
            | true => exact absurd ⟨trivial, hstar⟩ hcl
            | false =>
              rw [hstar] at hs
              simp [← hs]
          · simp [hc2]
        · simp [List.reverse_append, headIs]

theorem removeBlockComments_noBlock {l : List Char}
    (h : hasPair '/' '/' l = false) :
    hasBlock (removeBlockComments l) = false :=
  rbcGo_noBlock l .noC h

/-!
## `collapseBlank` preserves marker absence and leaves no blank line
-/

theorem collapseGo_none_head (x : Char) (r : List Char) :
    headIs x (collapseGo r none) = headIs x r := by
  cases r with
  | nil => rfl
  | cons c rest =>
    simp only [collapseGo]
    split
    · next hnl => subst hnl; rfl
    · rfl

theorem bufInv_nil : ∀ buf : List Char, some ([] : List Char) = some buf →
    ∀ c ∈ buf, pyIsSpace c = true := by
  intro buf hbuf c hc
  injection hbuf with h
  subst h
  cases hc

theorem hasPair_ws_append {a b : Char} (ha : pyIsSpace a = false) :
    ∀ (u v : List Char), (∀ c ∈ u, pyIsSpace c = true) →
      hasPair a b (u ++ v) = hasPair a b v := by
  intro u
  induction u with
  | nil => intro v _; rfl
  | cons c u' ih =>
    intro v hu
    have hca : (c = a) = False := by
      refine eq_false fun he => ?_
      have hws := hu c (by simp)
      rw [he, ha] at hws
      cases hws
    have ihv := ih v (fun x hx => hu x (by simp [hx]))
    simp only [List.cons_append, hasPair, hca, decide_False, Bool.false_and, Bool.false_or,
      List.append_eq]
    simpa [List.append_eq] using ihv

theorem wsOnly_noPair {a b : Char} (ha : pyIsSpace a = false) {m : List Char}
    (hm : ∀ c ∈ m, pyIsSpace c = true) : hasPair a b m = false := by
  have h := @hasPair_ws_append a b ha m [] hm
  simpa using h

theorem collapseGo_noPair {a b : Char} (ha : pyIsSpace a = false) :
    ∀ (l : List Char) (st : Option (List Char)),
      hasPair a b l = false →
      (∀ buf, st = some buf → ∀ c ∈ buf, pyIsSpace c = true) →
      hasPair a b (collapseGo l st) = false := by
  intro l
  induction l with
  | nil =>
    intro st h hb
    cases st with
    | none => rfl
    | some buf =>
      exact wsOnly_noPair ha fun c hc => hb buf rfl c (List.mem_reverse.mp hc)
  | cons c rest ih =>
    intro st h hb
    have hna : ('\n' = a) = False := by
      refine eq_false fun he => ?_
      rw [← he] at ha
      exact absurd ha (by decide)
    cases st with
    | none =>
      simp only [collapseGo]
      split
      · simp only [hasPair, Bool.or_eq_false_iff, hna]
        refine ⟨by simp, ?_⟩
        exact ih (some []) (hasPair_tail h) bufInv_nil
      · simp only [hasPair, Bool.or_eq_false_iff]
        refine ⟨?_, ih none (hasPair_tail h) (by rintro buf ⟨⟩)⟩
        rw [collapseGo_none_head]
        simp only [hasPair, Bool.or_eq_false_iff] at h
        exact h.1
    | some buf =>
      simp only [collapseGo]
      split
      · exact ih (some []) (hasPair_tail h) bufInv_nil
      · split
        · next hws =>
          refine ih (some (c :: buf)) (hasPair_tail h) ?_
          intro buf' hbuf' x hx
          injection hbuf' with hbuf'
          subst hbuf'
          rcases List.mem_cons.mp hx with rfl | hx
          · exact hws
          · exact hb buf rfl x hx
        · next hws =>
          rw [hasPair_ws_append ha _ _ fun x hx => hb buf rfl x (List.mem_reverse.mp hx)]
          simp only [hasPair, Bool.or_eq_false_iff]
          refine ⟨?_, ih none (hasPair_tail h) (by rintro buf' ⟨⟩)⟩
          rw [collapseGo_none_head]
          simp only [hasPair, Bool.or_eq_false_iff] at h
          exact h.1

theorem hasPair_collapse_rev {a b : Char} (ha : pyIsSpace a = false) {r : List Char}
    (h : hasPair a b (collapseGo r none) = true) : hasPair a b r = true := by
  cases hr : hasPair a b r with
  | true => rfl
  | false =>
    rw [collapseGo_noPair ha r none hr (by rintro buf ⟨⟩)] at h
    cases h

theorem hasBlock_ws_append :
    ∀ (u v : List Char), (∀ c ∈ u, pyIsSpace c = true) →
      hasBlock (u ++ v) = hasBlock v := by
  intro u
  induction u with
  | nil => intro v _; rfl
  | cons c u' ih =>
    intro v hu
    have hca : (c = '/') = False := by
      refine eq_false fun he => ?_
      have hws := hu c (by simp)
      rw [he] at hws
      exact absurd hws (by decide)
    have ihv := ih v (fun x hx => hu x (by simp [hx]))
    simp only [List.cons_append, hasBlock, hca, decide_False, Bool.false_and, Bool.false_or,
      List.append_eq]
    simpa [List.append_eq] using ihv

theorem collapseGo_noBlock :
    ∀ (l : List Char) (st : Option (List Char)),
      hasBlock l = false →
      (∀ buf, st = some buf → ∀ c ∈ buf, pyIsSpace c = true) →
      hasBlock (collapseGo l st) = false := by
  intro l
  induction l with
  | nil =>
    intro st h hb
    cases st with
    | none => rfl
    | some buf =>
      have h0 := hasBlock_ws_append buf.reverse []
        (fun c hc => hb buf rfl c (List.mem_reverse.mp hc))
      simpa using h0
  | cons c rest ih =>
    intro st h hb
    cases st with
    | none =>
      simp only [collapseGo]
      split
      · next hnl =>
        subst hnl
        simp only [hasBlock, Bool.or_eq_false_iff]
        refine ⟨by simp, ?_⟩
        exact ih (some []) (hasBlock_tail h) bufInv_nil
      · next hnl =>
        simp only [hasBlock, Bool.or_eq_false_iff]
        refine ⟨?_, ih none (hasBlock_tail h) (by rintro buf ⟨⟩)⟩
        by_cases hc2 : c = '/'
        · subst hc2
          cases hh : headIs '*' (collapseGo rest none) with
          | false => simp [hh]
          | true =>
            rw [collapseGo_none_head] at hh
            cases rest with
            | nil => simp [headIs] at hh
            | cons y r2 =>
              simp only [headIs, decide_eq_true_eq] at hh
              subst hh
              have hout : collapseGo ('*' :: r2) none = '*' :: collapseGo r2 none := by
                simp [collapseGo]
              rw [hout]
              cases hp : hasPair '*' '/' (collapseGo r2 none) with
              | false => simp [headIs, hp]
              | true =>
                exfalso
                have hp2 := hasPair_collapse_rev (by decide) hp
                have : hasBlock ('/' :: '*' :: r2) = true := by
                  simp [hasBlock, headIs, hp2]
                rw [this] at h
                cases h
        · simp [hc2]
    | some buf =>
      simp only [collapseGo]
      split
      · exact ih (some []) (hasBlock_tail h) bufInv_nil
      · split
        · next hws =>
          refine ih (some (c :: buf)) (hasBlock_tail h) ?_
          intro buf' hbuf' x hx
          injection hbuf' with hbuf'
          subst hbuf'
          rcases List.mem_cons.mp hx with rfl | hx
          · exact hws
          · exact hb buf rfl x hx
        · next hws =>
          rw [hasBlock_ws_append _ _ fun x hx => hb buf rfl x (List.mem_reverse.mp hx)]
          simp only [hasBlock, Bool.or_eq_false_iff]
          refine ⟨?_, ih none (hasBlock_tail h) (by rintro buf' ⟨⟩)⟩
          by_cases hc2 : c = '/'
          · subst hc2
            cases hh : headIs '*' (collapseGo rest none) with
            | false => simp [hh]
            | true =>
              rw [collapseGo_none_head] at hh
              cases rest with
              | nil => simp [headIs] at hh
              | cons y r2 =>
                simp only [headIs, decide_eq_true_eq] at hh
                subst hh
                have hout : collapseGo ('*' :: r2) none = '*' :: collapseGo r2 none := by
                  simp [collapseGo]
                rw [hout]
                cases hp : hasPair '*' '/' (collapseGo r2 none) with
                | false => simp [headIs, hp]
                | true =>
                  exfalso
                  have hp2 := hasPair_collapse_rev (by decide) hp
                  have : hasBlock ('/' :: '*' :: r2) = true := by
                    simp [hasBlock, headIs, hp2]
                  rw [this] at h
                  cases h
          · simp [hc2]

theorem wsThenNl_nonNl_append :
    ∀ (u v : List Char), (∀ c ∈ u, pyIsSpace c = true ∧ c ≠ '\n') →
      wsThenNl (u ++ v) = wsThenNl v := by
  intro u
  induction u with
  | nil => intro v _; rfl
  | cons c u' ih =>
    intro v hu
    obtain ⟨hws, hnl⟩ := hu c (by simp)
    simp only [List.cons_append, wsThenNl, if_neg hnl, if_pos hws]
    exact ih v fun x hx => hu x (by simp [hx])

theorem wsThenNl_nonNl_end {m : List Char}
    (hm : ∀ c ∈ m, pyIsSpace c = true ∧ c ≠ '\n') : wsThenNl m = false := by
  have h := wsThenNl_nonNl_append m [] hm
  simpa using h

theorem wsThenNl_collapse_some :
    ∀ (l buf : List Char), (∀ c ∈ buf, pyIsSpace c = true ∧ c ≠ '\n') →
      wsThenNl (collapseGo l (some buf)) = false := by
  intro l
  induction l with
  | nil =>
    intro buf hb
    exact wsThenNl_nonNl_end fun c hc => hb c (List.mem_reverse.mp hc)
  | cons c rest ih =>
    intro buf hb
    simp only [collapseGo]
    split
    · exact ih [] (by intro x hx; cases hx)
    · split
      · next hnl hws =>
        refine ih (c :: buf) ?_
        intro x hx
        rcases List.mem_cons.mp hx with rfl | hx
        · exact ⟨hws, hnl⟩
        · exact hb x hx
      · next hnl hws =>
        rw [wsThenNl_nonNl_append _ _ fun x hx => hb x (List.mem_reverse.mp hx)]
        simp only [wsThenNl, if_neg hnl]
        rw [if_neg]
        intro hc
        exact hws hc

theorem hasNlWsNl_nonNl_append :
    ∀ (u v : List Char), (∀ c ∈ u, c ≠ '\n') →
      hasNlWsNl (u ++ v) = hasNlWsNl v := by
  intro u
  induction u with
  | nil => intro v _; rfl
  | cons c u' ih =>
    intro v hu
    have hca : (c = '\n') = False := eq_false (hu c (by simp))
    have ihv := ih v (fun x hx => hu x (by simp [hx]))
    simp only [List.cons_append, hasNlWsNl, hca, decide_False, Bool.false_and, Bool.false_or,
      List.append_eq]
    simpa [List.append_eq] using ihv

theorem collapseGo_noNlWsNl :
    ∀ (l : List Char) (st : Option (List Char)),
      (∀ buf, st = some buf → ∀ c ∈ buf, pyIsSpace c = true ∧ c ≠ '\n') →
      hasNlWsNl (collapseGo l st) = false := by
  intro l
  induction l with
  | nil =>
    intro st hb
    cases st with
    | none => rfl
    | some buf =>
      have h0 := hasNlWsNl_nonNl_append buf.reverse []
        (fun c hc => (hb buf rfl c (List.mem_reverse.mp hc)).2)
      simpa using h0
  | cons c rest ih =>
    intro st hb
    cases st with
    | none =>
      simp only [collapseGo]
      split
      · simp only [hasNlWsNl, Bool.or_eq_false_iff]
        constructor
        · rw [wsThenNl_collapse_some rest [] (by intro x hx; cases hx)]
          simp
        · exact ih (some [])
            (by intro buf hbuf x hx; injection hbuf with h2; subst h2; cases hx)
      · next hnl =>
        simp only [hasNlWsNl, Bool.or_eq_false_iff]
        refine ⟨by simp [hnl], ih none (by rintro buf ⟨⟩)⟩
    | some buf =>
      simp only [collapseGo]
      split
      · exact ih (some [])
          (by intro buf' hbuf' x hx; injection hbuf' with h2; subst h2; cases hx)
      · split
        · next hnl hws =>
          refine ih (some (c :: buf)) ?_
          intro buf' hbuf' x hx
          injection hbuf' with hbuf'
          subst hbuf'
          rcases List.mem_cons.mp hx with rfl | hx
          · exact ⟨hws, hnl⟩
          · exact hb buf rfl x hx
        · next hnl hws =>
          rw [hasNlWsNl_nonNl_append _ _ fun x hx => (hb buf rfl x (List.mem_reverse.mp hx)).2]
          simp only [hasNlWsNl, Bool.or_eq_false_iff]
          refine ⟨by simp [hnl], ih none (by rintro buf' ⟨⟩)⟩

theorem wsThenNlRest_imp {r r2 : List Char} (h : wsThenNlRest r = some r2) :
    wsThenNl r = true := by
  induction r generalizing r2 with
  | nil => cases h
  | cons c r' ih =>
    simp only [wsThenNlRest] at h
    simp only [wsThenNl]
    split at h
    · simp_all
    · split at h
      · next hws => simp only [if_neg (by assumption), if_pos hws]; exact ih h
      · cases h

theorem hasTwoBlank_of_noNlWsNl : ∀ {m : List Char},
    hasNlWsNl m = false → hasTwoBlankLines m = false := by
  intro m
  induction m with
  | nil => intro _; rfl
  | cons c r ih =>
    intro h
    simp only [hasTwoBlankLines, Bool.or_eq_false_iff]
    refine ⟨?_, ih (hasNlWsNl_tail h)⟩
    cases hr : wsThenNlRest r with
    | none => simp
    | some r2 =>
      by_cases hc : c = '\n'
      · exfalso
        subst hc
        have hw := wsThenNlRest_imp hr
        have : hasNlWsNl ('\n' :: r) = true := by simp [hasNlWsNl, hw]
        rw [this] at h
        cases h
      · simp [hc]

/-!
## Stripping only removes outer text, so the absence results transfer
-/

theorem pyStrip_decomp (m : List Char) : ∃ t u, m = t ++ (pyStrip m ++ u) := by
  refine ⟨m.takeWhile pyIsSpace,
    ((m.dropWhile pyIsSpace).reverse.takeWhile pyIsSpace).reverse, ?_⟩
  have h2 : m.dropWhile pyIsSpace =
      pyStrip m ++ ((m.dropWhile pyIsSpace).reverse.takeWhile pyIsSpace).reverse := by
    calc m.dropWhile pyIsSpace
        = (m.dropWhile pyIsSpace).reverse.reverse := (List.reverse_reverse _).symm
      _ = ((m.dropWhile pyIsSpace).reverse.takeWhile pyIsSpace ++
            (m.dropWhile pyIsSpace).reverse.dropWhile pyIsSpace).reverse := by
          rw [List.takeWhile_append_dropWhile]
      _ = ((m.dropWhile pyIsSpace).reverse.dropWhile pyIsSpace).reverse ++
            ((m.dropWhile pyIsSpace).reverse.takeWhile pyIsSpace).reverse :=
          List.reverse_append _ _
      _ = pyStrip m ++ ((m.dropWhile pyIsSpace).reverse.takeWhile pyIsSpace).reverse := rfl
  calc m = m.takeWhile pyIsSpace ++ m.dropWhile pyIsSpace :=
        (List.takeWhile_append_dropWhile _ _).symm
    _ = m.takeWhile pyIsSpace ++
        (pyStrip m ++ ((m.dropWhile pyIsSpace).reverse.takeWhile pyIsSpace).reverse) := by
        rw [← h2]

theorem hasPair_pyStrip {a b : Char} {m : List Char} (h : hasPair a b m = false) :
    hasPair a b (pyStrip m) = false := by
  obtain ⟨t, u, hdec⟩ := pyStrip_decomp m
  rw [hdec] at h
  exact hasPair_append_left (hasPair_append_right h)

theorem hasBlock_pyStrip {m : List Char} (h : hasBlock m = false) :
    hasBlock (pyStrip m) = false := by
  obtain ⟨t, u, hdec⟩ := pyStrip_decomp m
  rw [hdec] at h
  exact hasBlock_append_left (hasBlock_append_right h)

theorem hasNlWsNl_pyStrip {m : List Char} (h : hasNlWsNl m = false) :
    hasNlWsNl (pyStrip m) = false := by
  obtain ⟨t, u, hdec⟩ := pyStrip_decomp m
  rw [hdec] at h
  exact hasNlWsNl_append_left (hasNlWsNl_append_right h)

/-- C1 (amended): for every input, the output of `clean_go_code` contains no
line-comment marker, no complete block comment (an opener marker later
followed by a closer marker), and never two consecutive blank lines. -/
theorem cleanCode_no_markers_no_double_blank (l : List Char) :
    hasPair '/' '/' (cleanCode l) = false ∧ hasBlock (cleanCode l) = false ∧
      hasTwoBlankLines (cleanCode l) = false := by
  have h1 : hasPair '/' '/' (removeLineComments l) = false := removeLineComments_noPair l
  have h2 : hasPair '/' '/' (removeBlockComments (removeLineComments l)) = false :=
    rbcGo_noPair (removeLineComments l) .noC h1
  have h3 : hasBlock (removeBlockComments (removeLineComments l)) = false :=
    rbcGo_noBlock (removeLineComments l) .noC h1
  have h4 : hasPair '/' '/' (collapseBlank (removeBlockComments (removeLineComments l))) = false :=
    collapseGo_noPair (by decide) _ none h2 (by rintro buf ⟨⟩)
  have h5 : hasBlock (collapseBlank (removeBlockComments (removeLineComments l))) = false :=
    collapseGo_noBlock _ none h3 (by rintro buf ⟨⟩)
  have h6 : hasNlWsNl (collapseBlank (removeBlockComments (removeLineComments l))) = false :=
    collapseGo_noNlWsNl _ none (by rintro buf ⟨⟩)
  exact ⟨hasPair_pyStrip h4, hasBlock_pyStrip h5,
    hasTwoBlank_of_noNlWsNl (hasNlWsNl_pyStrip h6)⟩

/-- C1 counterexample: the input "a /\x2a x // y \x2a/ b" contains the
substring "/\x2a x // y \x2a/", which matches the block-comment grammar
(shortest span between the opener and closer markers: the interior has no
closer pair).  Yet `clean_go_code` does not remove that substring: because
the line-comment pass runs first and deletes from "//" to the end of the
line — including the closer marker — the output "a /\x2a x" still contains
the opener marker and the leading characters of the block comment.  So
"removes every substring matching the block-comment grammar" fails on this
input. -/
theorem clean_go_code_block_comment_not_removed :
    "a /* x // y */ b".data =
        "a ".data ++ ('/' :: '*' :: " x // y ".data ++ ['*', '/']) ++ " b".data ∧
    hasPair '*' '/' " x // y ".data = false ∧
    clean_go_code "a /* x // y */ b" = "a /* x" ∧
    hasPair '/' '*' (clean_go_code "a /* x // y */ b").data = true := by
  refine ⟨by decide, by decide, ?_, by decide⟩
  decide

/-!
## `GoDataProcessor.create_training_pairs`

A training pair is a prompt/completion record; the four templates follow the
source verbatim (`code[:500]` truncates by code points, as Python slicing
does).  The guard is Python truthiness of `code.strip()`.
-/

structure TP where
  prompt : String
  completion : String
deriving DecidableEq

/-- `code[:500]`-style slicing. -/
def pySlice (s : String) (n : Nat) : String := ⟨s.data.take n⟩

def explainPair (code context : String) : TP :=
  ⟨"Explain this Go code:\n\n" ++ pySlice code 500,
   "This Go code " ++ context ++ ". Here\x27s what it does:\n\n[Detailed explanation of the code structure, functionality, and Go-specific patterns used]"⟩

def genPair (code context : String) : TP :=
  ⟨"Write Go code for: " ++ context, pySlice code 500⟩

def debugPair (code context : String) : TP :=
  ⟨"Debug this Go code:\n\n" ++ pySlice code 500,
   "Here are potential issues and improvements:\n\n[Analysis of code quality, potential bugs, and Go best practices]"⟩

def improvePair (code context : String) : TP :=
  ⟨"Improve this Go code:\n\n" ++ pySlice code 500,
   "Here\x27s an improved version following Go best practices:\n\n[Refactored code with explanations of improvements]"⟩

/-- `GoDataProcessor.create_training_pairs`. -/
def create_training_pairs (code context : String) : List TP :=
  if pyStrip code.data = [] then []
  else
    [explainPair code context] ++
      (if context = "" then [] else [genPair code context]) ++
      [debugPair code context, improvePair code context]

/-- C2 counterexample: a blank, non-empty text yields zero pairs, not
three: the guard tests the stripped text. -/
theorem create_training_pairs_blank_not_three :
    (" " : String) ≠ "" ∧ create_training_pairs " " "" = [] :=
  ⟨by decide, by decide⟩

/-- C2 (amended): on text that strips to empty the result is empty; on
non-blank text the result is exactly the three template pairs (generation
omitted) when the label is empty, and exactly the four template pairs in
order explanation, generation, debugging, improvement when it is not. -/
theorem create_training_pairs_counts (code context : String) :
    (pyStrip code.data = [] → create_training_pairs code context = []) ∧
    (pyStrip code.data ≠ [] → context = "" →
      create_training_pairs code context =
        [explainPair code context, debugPair code context, improvePair code context]) ∧
    (pyStrip code.data ≠ [] → context ≠ "" →
      create_training_pairs code context =
        [explainPair code context, genPair code context, debugPair code context,
          improvePair code context]) := by
  refine ⟨fun h => by simp [create_training_pairs, h], fun h hctx => ?_, fun h hctx => ?_⟩
  · simp [create_training_pairs, h, hctx]
  · simp [create_training_pairs, h, hctx]

theorem create_training_pairs_counts_witness :
    (pyStrip ("x" : String).data ≠ [] ∧
      create_training_pairs "x" "" =
        [explainPair "x" "", debugPair "x" "", improvePair "x" ""]) ∧
    (("ctx" : String) ≠ "" ∧
      create_training_pairs "x" "ctx" =
        [explainPair "x" "ctx", genPair "x" "ctx", debugPair "x" "ctx",
          improvePair "x" "ctx"]) :=
  ⟨⟨by decide, (create_training_pairs_counts "x" "").2.1 (by decide) rfl⟩,
   ⟨by decide, (create_training_pairs_counts "x" "ctx").2.2 (by decide) (by decide)⟩⟩

theorem pyStrip_all_ws {m : List Char} (hm : ∀ c ∈ m, pyIsSpace c = true) :
    pyStrip m = [] := by
  have h1 : m.dropWhile pyIsSpace = [] := List.dropWhile_eq_nil_iff.mpr hm
  simp [pyStrip, h1]

/-- C10: a non-empty but all-whitespace text yields no pairs, for any
label — the guard tests the stripped text, not mere emptiness. -/
theorem create_training_pairs_whitespace_empty (code context : String)
    (hne : code ≠ "") (hws : ∀ c ∈ code.data, pyIsSpace c = true) :
    create_training_pairs code context = [] := by
  simp [create_training_pairs, pyStrip_all_ws hws]

theorem create_training_pairs_whitespace_empty_witness :
    ((" " : String) ≠ "" ∧ ∀ c ∈ (" " : String).data, pyIsSpace c = true) ∧
      create_training_pairs " " "z" = [] :=
  ⟨⟨by decide, by decide⟩,
    create_training_pairs_whitespace_empty " " "z" (by decide) (by decide)⟩

/-!
## `GitHubGoScraper.get_top_go_repos`

The paginated search loop, modelled over an abstract page oracle: page `n`
either yields the `items` list of that search response or raises a
`requests.RequestException`.  The `while len(repos) < limit` loop is
modelled with explicit fuel (one unit per iteration); `none` means the loop
is still running after that many iterations.  Repositories are opaque
values of a type `α`.
-/

inductive Page (α : Type) where
  | ok : List α → Page α
  | err : Page α

def reposLoop {α : Type} (pages : Nat → Page α) (limit : Nat) :
    Nat → Nat → List α → Option (List α)
  | 0, _, _ => none
  | fuel + 1, page, repos =>
    if repos.length < limit then
      match pages page with
      | .ok items => reposLoop pages limit fuel (page + 1) (repos ++ items)
      | .err => some (repos.take limit)
    else some (repos.take limit)

/-- `get_top_go_repos(limit)`: run the pagination loop from page 1 with an
empty accumulator and the given iteration budget. -/
def get_top_go_repos {α : Type} (pages : Nat → Page α) (limit : Nat) (fuel : Nat) :
    Option (List α) :=
  reposLoop pages limit fuel 1 []

/-- The loop terminates on the given oracle and limit: some iteration
budget suffices for it to return. -/
def reposTerminates {α : Type} (pages : Nat → Page α) (limit : Nat) : Prop :=
  ∃ fuel r, get_top_go_repos pages limit fuel = some r

/-- C3 counterexample: with the upstream forever reporting success with no
items (an empty `items` page), the loop never terminates — the code has no
empty-page check, so `len(repos)` never grows and the `while` condition
stays true.  This refutes "the pagination loop terminates [and terminates
on] the upstream reporting no more items". -/
theorem get_top_go_repos_empty_pages_diverges :
    ¬ reposTerminates (fun _ => Page.ok ([] : List Nat)) 1 := by
  rintro ⟨fuel, r, hr⟩
  have key : ∀ (f p : Nat), reposLoop (fun _ => Page.ok ([] : List Nat)) 1 f p [] = none := by
    intro f
    induction f with
    | zero => intro p; rfl
    | succ f ih =>
      intro p
      simp only [reposLoop, List.length_nil, Nat.zero_lt_one, if_true]
      simpa using ih (p + 1)
  rw [get_top_go_repos, key fuel 1] at hr
  cases hr

theorem reposLoop_exit_reason {α : Type} (pages : Nat → Page α) (limit : Nat) :
    ∀ (fuel page : Nat) (acc r : List α),
      reposLoop pages limit fuel page acc = some r →
      ∃ (p : Nat) (rs : List α), r = rs.take limit ∧ (limit ≤ rs.length ∨ pages p = Page.err) := by
  intro fuel
  induction fuel with
  | zero => intro page acc r h; cases h
  | succ fuel ih =>
    intro page acc r h
    simp only [reposLoop] at h
    by_cases hlt : acc.length < limit
    · rw [if_pos hlt] at h
      cases hp : pages page with
      | ok items =>
        rw [hp] at h
        exact ih (page + 1) (acc ++ items) r h
      | err =>
        rw [hp] at h
        injection h with h
        exact ⟨page, acc, h.symm, Or.inr hp⟩
    · rw [if_neg hlt] at h
      injection h with h
      exact ⟨page, acc, h.symm, Or.inl (by omega)⟩

/-- C3 (amended): the pagination loop terminates whenever every successful
page is non-empty (a fetch error also ends it), and it terminates only by
reaching `limit` or by a fetch error — an empty success page is not an exit
condition. -/
theorem get_top_go_repos_termination {α : Type} (pages : Nat → Page α) (limit : Nat) :
    ((∀ n items, pages n = Page.ok items → items ≠ []) → reposTerminates pages limit) ∧
    (∀ fuel r, get_top_go_repos pages limit fuel = some r →
      ∃ (p : Nat) (rs : List α), r = rs.take limit ∧ (limit ≤ rs.length ∨ pages p = Page.err)) := by
  constructor
  · intro hne
    have key : ∀ (k : Nat) (acc : List α) (page : Nat), limit - acc.length ≤ k →
        ∃ fuel r, reposLoop pages limit fuel page acc = some r := by
      intro k
      induction k with
      | zero =>
        intro acc page h
        refine ⟨1, acc.take limit, ?_⟩
        simp only [reposLoop]
        rw [if_neg (by omega)]
      | succ k ih =>
        intro acc page h
        by_cases hlt : acc.length < limit
        · cases hp : pages page with
          | err =>
            refine ⟨1, acc.take limit, ?_⟩
            simp only [reposLoop]
            rw [if_pos hlt, hp]
          | ok items =>
            have hpos : 0 < items.length := List.length_pos.mpr (hne page items hp)
            have hk : limit - (acc ++ items).length ≤ k := by
              simp only [List.length_append]
              omega
            obtain ⟨fuel, r, hr⟩ := ih (acc ++ items) (page + 1) hk
            refine ⟨fuel + 1, r, ?_⟩
            simp only [reposLoop]
            rw [if_pos hlt, hp]
            exact hr
        · refine ⟨1, acc.take limit, ?_⟩
          simp only [reposLoop]
          rw [if_neg hlt]
    obtain ⟨fuel, r, hr⟩ := key limit [] 1 (by simp)
    exact ⟨fuel, r, hr⟩
  · intro fuel r h
    exact reposLoop_exit_reason pages limit fuel 1 [] r h

theorem get_top_go_repos_termination_witness :
    reposTerminates (fun _ => Page.ok [0]) 2 :=
  (get_top_go_repos_termination (fun _ => Page.ok [0]) 2).1
    (by intro n items h; injection h with h; subst h; simp)

/-- The `items` of page `p`, or `[]` on a fetch error. -/
def pageItems {α : Type} (pages : Nat → Page α) (p : Nat) : List α :=
  match pages p with
  | .ok its => its
  | .err => []

/-- Concatenation, in delivery order, of the items of `k` consecutive pages
starting at page `start`. -/
def catPages {α : Type} (pages : Nat → Page α) (start : Nat) : Nat → List α
  | 0 => []
  | k + 1 => pageItems pages start ++ catPages pages (start + 1) k

theorem reposLoop_some_shape {α : Type} (pages : Nat → Page α) (limit : Nat) :
    ∀ (fuel page : Nat) (acc r : List α),
      reposLoop pages limit fuel page acc = some r →
      ∃ m, (∀ j, j < m → ∃ its, pages (page + j) = Page.ok its) ∧
        r = (acc ++ catPages pages page m).take limit := by
  intro fuel
  induction fuel with
  | zero => intro page acc r h; cases h
  | succ fuel ih =>
    intro page acc r h
    simp only [reposLoop] at h
    by_cases hlt : acc.length < limit
    · rw [if_pos hlt] at h
      cases hp : pages page with
      | ok items =>
        rw [hp] at h
        obtain ⟨m, hm, hr⟩ := ih (page + 1) (acc ++ items) r h
        refine ⟨m + 1, ?_, ?_⟩
        · intro j hj
          cases j with
          | zero => exact ⟨items, by simpa using hp⟩
          | succ j =>
            obtain ⟨its, hits⟩ := hm j (by omega)
            exact ⟨its, by rw [show page + (j + 1) = page + 1 + j by omega]; exact hits⟩
        · rw [hr]
          simp only [catPages, pageItems, hp, List.append_assoc]
      | err =>
        rw [hp] at h
        injection h with h
        refine ⟨0, by intro j hj; omega, ?_⟩
        simp [catPages, ← h]
    · rw [if_neg hlt] at h
      injection h with h
      exact ⟨0, by intro j hj; omega, by simp [catPages, ← h]⟩

/-- C4: whenever the pagination loop returns, the result has at most
`limit` entries and is an initial segment of the concatenation, in delivery
order, of the items of the successfully fetched pages (so the externally
imposed ranking order is preserved); and a fetch error makes the loop
return the repositories accumulated so far (truncated to `limit`) instead of
failing. -/
theorem get_top_go_repos_bounded_ordered {α : Type} (pages : Nat → Page α) (limit : Nat) :
    (∀ fuel r, get_top_go_repos pages limit fuel = some r →
      r.length ≤ limit ∧
        ∃ m, (∀ j, j < m → ∃ its, pages (1 + j) = Page.ok its) ∧
          r = (catPages pages 1 m).take limit) ∧
    (∀ (fuel page : Nat) (acc : List α), acc.length < limit → pages page = Page.err →
      reposLoop pages limit (fuel + 1) page acc = some (acc.take limit)) := by
  constructor
  · intro fuel r h
    obtain ⟨m, hm, hr⟩ := reposLoop_some_shape pages limit fuel 1 [] r h
    refine ⟨?_, m, hm, by simpa using hr⟩
    rw [hr]
    simp [List.length_take]
  · intro fuel page acc hlt hp
    simp only [reposLoop]
    rw [if_pos hlt, hp]

theorem get_top_go_repos_bounded_ordered_witness :
    get_top_go_repos (fun n => if n = 1 then Page.ok [3, 2] else Page.err) 3 5 = some [3, 2] ∧
      ([3, 2] : List Nat).length ≤ 3 ∧
      ∃ m, (∀ j, j < m →
          ∃ its, (fun n => if n = 1 then Page.ok [3, 2] else Page.err) (1 + j) = Page.ok its) ∧
        ([3, 2] : List Nat) =
          (catPages (fun n => if n = 1 then Page.ok [3, 2] else Page.err) 1 m).take 3 :=
  ⟨by decide,
    (get_top_go_repos_bounded_ordered (fun n => if n = 1 then Page.ok [3, 2] else Page.err) 3).1
      5 [3, 2] (by decide)⟩

/-!
## `GitHubGoScraper.get_repo_files`

One recursive tree listing per repository.  A tree entry has a `type` and a
`path` (the fields consumed by the loop); the response may lack the `tree`
key (`tree.get('tree', [])`).  A fetch failure (`requests.RequestException`,
including a non-success status raised by `raise_for_status`) yields `[]`.
-/

structure TreeItem where
  ty : String
  path : String
deriving DecidableEq

/-- The filter applied to each entry: blob type and `.go` suffix. -/
def goBlob (it : TreeItem) : Bool :=
  it.ty = "blob" && List.isSuffixOf ".go".data it.path.data

/-- The body of the `for` loop: append while under `max_files`. -/
def collectGo (maxFiles : Nat) (acc : List TreeItem) (it : TreeItem) : List TreeItem :=
  if goBlob it && decide (acc.length < maxFiles) then acc ++ [it] else acc

/-- `GitHubGoScraper.get_repo_files`: `.error` models a fetch failure,
`.ok none` a response without a `tree` key, `.ok (some items)` a tree
listing. -/
def get_repo_files (resp : Except Unit (Option (List TreeItem))) (maxFiles : Nat) :
    List TreeItem :=
  match resp with
  | .error _ => []
  | .ok t => (t.getD []).foldl (collectGo maxFiles) []

theorem collectGo_saturated (maxFiles : Nat) :
    ∀ (items acc : List TreeItem), maxFiles ≤ acc.length →
      items.foldl (collectGo maxFiles) acc = acc := by
  intro items
  induction items with
  | nil => intro acc _; rfl
  | cons it items ih =>
    intro acc h
    simp only [List.foldl_cons, collectGo]
    rw [if_neg (by simp; omega)]
    exact ih acc h

theorem collectGo_foldl (maxFiles : Nat) :
    ∀ (items acc : List TreeItem), acc.length ≤ maxFiles →
      items.foldl (collectGo maxFiles) acc =
        acc ++ (items.filter goBlob).take (maxFiles - acc.length) := by
  intro items
  induction items with
  | nil => intro acc _; simp
  | cons it items ih =>
    intro acc h
    simp only [List.foldl_cons, collectGo, List.filter_cons]
    cases hgb : goBlob it with
    | false =>
      rw [if_neg (by simp), if_neg (by simp), ih acc h]
    | true =>
      simp only [Bool.true_and]
      by_cases hlt : acc.length < maxFiles
      · rw [if_pos (by simpa using hlt), ih (acc ++ [it]) (by simp; omega)]
        simp only [List.length_append, List.length_cons, List.length_nil, List.append_assoc,
          List.cons_append, List.nil_append, if_true, Nat.add_zero, Nat.zero_add]
        rw [show maxFiles - acc.length = (maxFiles - (acc.length + 1)) + 1 from by omega,
          List.take_succ_cons]
      · rw [if_neg (by simpa using hlt), collectGo_saturated maxFiles items acc (by omega)]
        rw [show maxFiles - acc.length = 0 from by omega]
        simp

/-- C8: on a tree listing, `get_repo_files` returns the blob-typed `.go`
entries in listing order, truncated to `maxFiles` (hence at most `maxFiles`
entries, each a blob whose path ends in ".go"); a fetch failure — and also
a response without a `tree` key — yields the empty sequence rather than an
error. -/
theorem get_repo_files_spec (tree : List TreeItem) (maxFiles : Nat) :
    get_repo_files (.ok (some tree)) maxFiles = (tree.filter goBlob).take maxFiles ∧
    (get_repo_files (.ok (some tree)) maxFiles).length ≤ maxFiles ∧
    (∀ it ∈ get_repo_files (.ok (some tree)) maxFiles,
        it.ty = "blob" ∧ List.isSuffixOf ".go".data it.path.data = true) ∧
    get_repo_files (.error ()) maxFiles = [] ∧
    get_repo_files (.ok none) maxFiles = [] := by
  have h0 : get_repo_files (.ok (some tree)) maxFiles =
      (tree.filter goBlob).take maxFiles := by
    show tree.foldl (collectGo maxFiles) [] = (tree.filter goBlob).take maxFiles
    rw [collectGo_foldl maxFiles tree [] (by simp)]
    simp
  refine ⟨h0, ?_, ?_, rfl, rfl⟩
  · rw [h0]
    simp [List.length_take]
  · intro it hit
    rw [h0] at hit
    have hf : it ∈ tree.filter goBlob := List.mem_of_mem_take hit
    have hgb : goBlob it = true := List.of_mem_filter hf
    simp only [goBlob, Bool.and_eq_true, decide_eq_true_eq] at hgb
    exact hgb

theorem get_repo_files_spec_witness :
    get_repo_files
        (.ok (some [⟨"blob", "a.go"⟩, ⟨"tree", "b.go"⟩, ⟨"blob", "c.txt"⟩, ⟨"blob", "d.go"⟩]))
        1 = [⟨"blob", "a.go"⟩] ∧
      (TreeItem.mk "blob" "a.go").ty = "blob" ∧
        List.isSuffixOf ".go".data (TreeItem.mk "blob" "a.go").path.data = true :=
  ⟨by decide,
    (get_repo_files_spec
        [⟨"blob", "a.go"⟩, ⟨"tree", "b.go"⟩, ⟨"blob", "c.txt"⟩, ⟨"blob", "d.go"⟩] 1).2.2.1
      ⟨"blob", "a.go"⟩ (by decide)⟩

/-!
## `GoModelTrainer.save_training_data` / `load_training_data`

The dataset file is a single JSON array of prompt/completion records
(`json.dump(self.training_data, ...)` / `self.training_data = json.load(f)`),
and `json` round-trips such arrays exactly, so the filesystem is modelled at
array granularity: a map from paths to an optionally present stored pair
list, `none` modelling an absent file (`os.path.exists` false).
-/

/-- `save_training_data`: overwrite the file with the full sequence. -/
def save_training_data (fs : String → Option (List TP)) (file : String)
    (data : List TP) : String → Option (List TP) :=
  fun p => if p = file then some data else fs p

/-- `load_training_data`: returns the new in-memory sequence together with
whether the missing-file warning was logged.  An existing file replaces the
sequence with its parsed contents; an absent file logs a warning and leaves
`self.training_data` as it was. -/
def load_training_data (fs : String → Option (List TP)) (file : String)
    (cur : List TP) : List TP × Bool :=
  match fs file with
  | some pairs => (pairs, false)
  | none => (cur, true)

/-- C6 counterexample: loading from a missing path does not leave the
in-memory sequence empty when it was non-empty before the call — the
`else` branch only logs, it never clears `self.training_data`. -/
theorem load_training_data_missing_keeps_data :
    load_training_data (fun _ => none) "training_data.json" [⟨"p", "c"⟩] =
        ([⟨"p", "c"⟩], true) ∧
      ([(⟨"p", "c"⟩ : TP)] : List TP) ≠ [] :=
  ⟨rfl, by decide⟩

/-- C6 (amended): for a path at which no file exists, `load_training_data`
logs a warning and leaves the in-memory sequence unchanged (so it is empty
only if it was already empty); for an existing file it replaces the entire
sequence with the file's parsed contents. -/
theorem load_training_data_spec (fs : String → Option (List TP)) (file : String)
    (cur : List TP) :
    (fs file = none → load_training_data fs file cur = (cur, true)) ∧
    (∀ pairs, fs file = some pairs → load_training_data fs file cur = (pairs, false)) := by
  constructor
  · intro h
    simp [load_training_data, h]
  · intro pairs h
    simp [load_training_data, h]

theorem load_training_data_spec_witness :
    ((fun (_ : String) => (none : Option (List TP))) "f" = none ∧
      load_training_data (fun _ => none) "f" [⟨"q", "r"⟩] = ([⟨"q", "r"⟩], true)) ∧
    ((fun (_ : String) => some [(⟨"x", "y"⟩ : TP)]) "f" = some [⟨"x", "y"⟩] ∧
      load_training_data (fun _ => some [(⟨"x", "y"⟩ : TP)]) "f" [] = ([⟨"x", "y"⟩], false)) :=
  ⟨⟨rfl, (load_training_data_spec (fun _ => none) "f" [⟨"q", "r"⟩]).1 rfl⟩,
   ⟨rfl, (load_training_data_spec (fun _ => some [(⟨"x", "y"⟩ : TP)]) "f" []).2
      [⟨"x", "y"⟩] rfl⟩⟩

/-- C7: saving the in-memory sequence and loading from the same path
reproduces exactly the saved sequence, element for element and in order
(and without the missing-file warning), for any prior file-system state and
any prior in-memory sequence. -/
theorem save_load_round_trip (fs : String → Option (List TP)) (file : String)
    (data cur : List TP) :
    load_training_data (save_training_data fs file data) file cur = (data, false) := by
  simp [save_training_data, load_training_data]

/-!
## `GitHubGoScraper.download_file_content`

The body fetches the content record, reads `data['content']`, base64-decodes
it and UTF-8-decodes the bytes; the `except` clause catches only
`requests.RequestException`.  `base64.b64decode` (lenient mode) discards
characters outside the alphabet, decodes four-character groups (padding
closing the final group), and raises `binascii.Error` when a partial group
is left over; `bytes.decode('utf-8')` raises `UnicodeDecodeError` on
invalid UTF-8; a missing `content` key raises `KeyError`.  None of those
three is a `requests.RequestException`, so they propagate out of the
function; the embedding makes the raised exception explicit in the result
type.
-/

def b64Val (c : Char) : Option Nat :=
  if 'A' ≤ c ∧ c ≤ 'Z' then some (c.toNat - 65)
  else if 'a' ≤ c ∧ c ≤ 'z' then some (c.toNat - 97 + 26)
  else if '0' ≤ c ∧ c ≤ '9' then some (c.toNat - 48 + 52)
  else if c = '+' then some 62
  else if c = '/' then some 63
  else none

def b64Relevant (c : Char) : Bool := (b64Val c).isSome || c = '='

/-- Decode four-character groups; a final group may close with padding; a
leftover partial group is a `binascii.Error` (`none`). -/
def b64Quads : List Char → Option (List Nat)
  | [] => some []
  | a :: b :: c :: d :: rest =>
    match b64Val a, b64Val b with
    | some va, some vb =>
      if c = '=' then
        if d = '=' then some [va * 4 + vb / 16] else none
      else
        match b64Val c with
        | some vc =>
          if d = '=' then some [va * 4 + vb / 16, vb % 16 * 16 + vc / 4]
          else
            match b64Val d with
            | some vd =>
              match b64Quads rest with
              | some bytes =>
                some ((va * 4 + vb / 16) :: (vb % 16 * 16 + vc / 4) ::
                  (vc % 4 * 64 + vd) :: bytes)
              | none => none
            | none => none
        | none => none
    | _, _ => none
  | _ => none

/-- `base64.b64decode` in lenient (default) mode. -/
def b64decode (s : List Char) : Option (List Nat) :=
  b64Quads (s.filter b64Relevant)

def utf8Cont (b : Nat) : Bool := 0x80 ≤ b && b ≤ 0xBF

/-- `bytes.decode('utf-8')`: the standard validating UTF-8 decoder. -/
def utf8decode : List Nat → Option (List Char)
  | [] => some []
  | b1 :: rest =>
    if b1 < 0x80 then
      (utf8decode rest).map (Char.ofNat b1 :: ·)
    else if 0xC2 ≤ b1 && b1 ≤ 0xDF then
      match rest with
      | b2 :: r =>
        if utf8Cont b2 then
          (utf8decode r).map (Char.ofNat ((b1 - 0xC0) * 64 + (b2 - 0x80)) :: ·)
        else none
      | _ => none
    else if 0xE0 ≤ b1 && b1 ≤ 0xEF then
      match rest with
      | b2 :: b3 :: r =>
        let lo2 : Nat := if b1 = 0xE0 then 0xA0 else 0x80
        let hi2 : Nat := if b1 = 0xED then 0x9F else 0xBF
        if (lo2 ≤ b2 && b2 ≤ hi2) && utf8Cont b3 then
          (utf8decode r).map
            (Char.ofNat ((b1 - 0xE0) * 4096 + (b2 - 0x80) * 64 + (b3 - 0x80)) :: ·)
        else none
      | _ => none
    else if 0xF0 ≤ b1 && b1 ≤ 0xF4 then
      match rest with
      | b2 :: b3 :: b4 :: r =>
        let lo2 : Nat := if b1 = 0xF0 then 0x90 else 0x80
        let hi2 : Nat := if b1 = 0xF4 then 0x8F else 0xBF
        if (lo2 ≤ b2 && b2 ≤ hi2) && utf8Cont b3 && utf8Cont b4 then
          (utf8decode r).map
            (Char.ofNat ((b1 - 0xF0) * 262144 + (b2 - 0x80) * 4096 + (b3 - 0x80) * 64
              + (b4 - 0x80)) :: ·)
        else none
      | _ => none
    else none

/-- The JSON record returned by the content endpoint; `content` may be
absent. -/
structure ContentResp where
  content : Option (List Char)

inductive PyError where
  | requestException : PyError
  | keyError : PyError
  | binasciiError : PyError
  | unicodeDecodeError : PyError
deriving DecidableEq

/-- `GitHubGoScraper.download_file_content`: `.error e` models an exception
escaping the function (only `requests.RequestException` is caught and turned
into `None`). -/
def download_file_content (resp : Except Unit ContentResp) : Except PyError (Option String) :=
  match resp with
  | .error _ => .ok none
  | .ok body =>
    match body.content with
    | none => .error .keyError
    | some s =>
      match b64decode s with
      | none => .error .binasciiError
      | some bytes =>
        match utf8decode bytes with
        | none => .error .unicodeDecodeError
        | some chars => .ok (some ⟨chars⟩)

deriving instance DecidableEq for Except

/-- C5 is refuted by the code: a fetch failure does return `None`, but a
response without a `content` field raises `KeyError`, a non-base64 payload
raises `binascii.Error`, and non-UTF-8 bytes raise `UnicodeDecodeError` —
none of which the `except requests.RequestException` clause catches, so
these decode failures escape as exceptions instead of returning `None`.
Only the fetch-failure clause and the success clause of the claim hold. -/
theorem download_file_content_decode_raises :
    download_file_content (.error ()) = .ok none ∧
    download_file_content (.ok ⟨none⟩) = .error .keyError ∧
    download_file_content (.ok ⟨some "A".data⟩) = .error .binasciiError ∧
    download_file_content (.ok ⟨some "/w==".data⟩) = .error .unicodeDecodeError ∧
    download_file_content (.ok ⟨some "cGFja2FnZQ==".data⟩) = .ok (some "package") :=
  ⟨rfl, rfl, by decide, by decide, by decide⟩

/-!
## `GoDataProcessor.extract_go_patterns`

The three patterns are
`func\s+\w+\s*\([^)]*\)\s*(?:\w+\s+)?\{[^}]*\}`,
`type\s+\w+\s+interface\s*\{[^}]*\}`, and
`type\s+\w+\s+struct\s*\{[^}]*\}`, each collected with `re.findall`
(leftmost, non-overlapping).  For these patterns matching is deterministic:
every greedy sub-pattern (`\s+`, `\w+`, `[^)]*`, `[^}]*`) is followed by a
character it cannot itself consume, so no backtracking into it can succeed,
and the optional `(?:\w+\s+)?` group succeeds exactly when a word run
followed by whitespace precedes the brace.  `\w`/`\s` are modelled by
`isWordChar`/`pyIsSpace` (the full Unicode classes, as in Python).
A matcher returns the matched text and the remaining input.
-/

/-- The maximal codepoint ranges, in ascending order, of the characters
classified alphanumeric by the Unicode database (Python `str.isalnum`,
generated from CPython's classification). -/
def pyWordRanges : List (Nat × Nat) :=
  [(48, 57), (65, 90), (97, 122), (170, 170), (178, 179), (181, 181), (185, 186), (188, 190), 
   (192, 214), (216, 246), (248, 705), (710, 721), (736, 740), (748, 748), (750, 750), 
   (880, 884), (886, 887), (890, 893), (895, 895), (902, 902), (904, 906), (908, 908), 
   (910, 929), (931, 1013), (1015, 1153), (1162, 1327), (1329, 1366), (1369, 1369), (1376, 1416), 
   (1488, 1514), (1519, 1522), (1568, 1610), (1632, 1641), (1646, 1647), (1649, 1747), 
   (1749, 1749), (1765, 1766), (1774, 1788), (1791, 1791), (1808, 1808), (1810, 1839), 
   (1869, 1957), (1969, 1969), (1984, 2026), (2036, 2037), (2042, 2042), (2048, 2069), 
   (2074, 2074), (2084, 2084), (2088, 2088), (2112, 2136), (2144, 2154), (2160, 2183), 
   (2185, 2190), (2208, 2249), (2308, 2361), (2365, 2365), (2384, 2384), (2392, 2401), 
   (2406, 2415), (2417, 2432), (2437, 2444), (2447, 2448), (2451, 2472), (2474, 2480), 
   (2482, 2482), (2486, 2489), (2493, 2493), (2510, 2510), (2524, 2525), (2527, 2529), 
   (2534, 2545), (2548, 2553), (2556, 2556), (2565, 2570), (2575, 2576), (2579, 2600), 
   (2602, 2608), (2610, 2611), (2613, 2614), (2616, 2617), (2649, 2652), (2654, 2654), 
   (2662, 2671), (2674, 2676), (2693, 2701), (2703, 2705), (2707, 2728), (2730, 2736), 
   (2738, 2739), (2741, 2745), (2749, 2749), (2768, 2768), (2784, 2785), (2790, 2799), 
   (2809, 2809), (2821, 2828), (2831, 2832), (2835, 2856), (2858, 2864), (2866, 2867), 
   (2869, 2873), (2877, 2877), (2908, 2909), (2911, 2913), (2918, 2927), (2929, 2935), 
   (2947, 2947), (2949, 2954), (2958, 2960), (2962, 2965), (2969, 2970), (2972, 2972), 
   (2974, 2975), (2979, 2980), (2984, 2986), (2990, 3001), (3024, 3024), (3046, 3058), 
   (3077, 3084), (3086, 3088), (3090, 3112), (3114, 3129), (3133, 3133), (3160, 3162), 
   (3165, 3165), (3168, 3169), (3174, 3183), (3192, 3198), (3200, 3200), (3205, 3212), 
   (3214, 3216), (3218, 3240), (3242, 3251), (3253, 3257), (3261, 3261), (3293, 3294), 
   (3296, 3297), (3302, 3311), (3313, 3314), (3332, 3340), (3342, 3344), (3346, 3386), 
   (3389, 3389), (3406, 3406), (3412, 3414), (3416, 3425), (3430, 3448), (3450, 3455), 
   (3461, 3478), (3482, 3505), (3507, 3515), (3517, 3517), (3520, 3526), (3558, 3567), 
   (3585, 3632), (3634, 3635), (3648, 3654), (3664, 3673), (3713, 3714), (3716, 3716), 
   (3718, 3722), (3724, 3747), (3749, 3749), (3751, 3760), (3762, 3763), (3773, 3773), 
   (3776, 3780), (3782, 3782), (3792, 3801), (3804, 3807), (3840, 3840), (3872, 3891), 
   (3904, 3911), (3913, 3948), (3976, 3980), (4096, 4138), (4159, 4169), (4176, 4181), 
   (4186, 4189), (4193, 4193), (4197, 4198), (4206, 4208), (4213, 4225), (4238, 4238), 
   (4240, 4249), (4256, 4293), (4295, 4295), (4301, 4301), (4304, 4346), (4348, 4680), 
   (4682, 4685), (4688, 4694), (4696, 4696), (4698, 4701), (4704, 4744), (4746, 4749), 
   (4752, 4784), (4786, 4789), (4792, 4798), (4800, 4800), (4802, 4805), (4808, 4822), 
   (4824, 4880), (4882, 4885), (4888, 4954), (4969, 4988), (4992, 5007), (5024, 5109), 
   (5112, 5117), (5121, 5740), (5743, 5759), (5761, 5786), (5792, 5866), (5870, 5880), 
   (5888, 5905), (5919, 5937), (5952, 5969), (5984, 5996), (5998, 6000), (6016, 6067), 
   (6103, 6103), (6108, 6108), (6112, 6121), (6128, 6137), (6160, 6169), (6176, 6264), 
   (6272, 6276), (6279, 6312), (6314, 6314), (6320, 6389), (6400, 6430), (6470, 6509), 
   (6512, 6516), (6528, 6571), (6576, 6601), (6608, 6618), (6656, 6678), (6688, 6740), 
   (6784, 6793), (6800, 6809), (6823, 6823), (6917, 6963), (6981, 6988), (6992, 7001), 
   (7043, 7072), (7086, 7141), (7168, 7203), (7232, 7241), (7245, 7293), (7296, 7304), 
   (7312, 7354), (7357, 7359), (7401, 7404), (7406, 7411), (7413, 7414), (7418, 7418), 
   (7424, 7615), (7680, 7957), (7960, 7965), (7968, 8005), (8008, 8013), (8016, 8023), 
   (8025, 8025), (8027, 8027), (8029, 8029), (8031, 8061), (8064, 8116), (8118, 8124), 
   (8126, 8126), (8130, 8132), (8134, 8140), (8144, 8147), (8150, 8155), (8160, 8172), 
   (8178, 8180), (8182, 8188), (8304, 8305), (8308, 8313), (8319, 8329), (8336, 8348), 
   (8450, 8450), (8455, 8455), (8458, 8467), (8469, 8469), (8473, 8477), (8484, 8484), 
   (8486, 8486), (8488, 8488), (8490, 8493), (8495, 8505), (8508, 8511), (8517, 8521), 
   (8526, 8526), (8528, 8585), (9312, 9371), (9450, 9471), (10102, 10131), (11264, 11492), 
   (11499, 11502), (11506, 11507), (11517, 11517), (11520, 11557), (11559, 11559), 
   (11565, 11565), (11568, 11623), (11631, 11631), (11648, 11670), (11680, 11686), 
   (11688, 11694), (11696, 11702), (11704, 11710), (11712, 11718), (11720, 11726), 
   (11728, 11734), (11736, 11742), (11823, 11823), (12293, 12295), (12321, 12329), 
   (12337, 12341), (12344, 12348), (12353, 12438), (12445, 12447), (12449, 12538), 
   (12540, 12543), (12549, 12591), (12593, 12686), (12690, 12693), (12704, 12735), 
   (12784, 12799), (12832, 12841), (12872, 12879), (12881, 12895), (12928, 12937), 
   (12977, 12991), (13312, 19903), (19968, 42124), (42192, 42237), (42240, 42508), 
   (42512, 42539), (42560, 42606), (42623, 42653), (42656, 42735), (42775, 42783), 
   (42786, 42888), (42891, 42954), (42960, 42961), (42963, 42963), (42965, 42969), 
   (42994, 43009), (43011, 43013), (43015, 43018), (43020, 43042), (43056, 43061), 
   (43072, 43123), (43138, 43187), (43216, 43225), (43250, 43255), (43259, 43259), 
   (43261, 43262), (43264, 43301), (43312, 43334), (43360, 43388), (43396, 43442), 
   (43471, 43481), (43488, 43492), (43494, 43518), (43520, 43560), (43584, 43586), 
   (43588, 43595), (43600, 43609), (43616, 43638), (43642, 43642), (43646, 43695), 
   (43697, 43697), (43701, 43702), (43705, 43709), (43712, 43712), (43714, 43714), 
   (43739, 43741), (43744, 43754), (43762, 43764), (43777, 43782), (43785, 43790), 
   (43793, 43798), (43808, 43814), (43816, 43822), (43824, 43866), (43868, 43881), 
   (43888, 44002), (44016, 44025), (44032, 55203), (55216, 55238), (55243, 55291), 
   (63744, 64109), (64112, 64217), (64256, 64262), (64275, 64279), (64285, 64285), 
   (64287, 64296), (64298, 64310), (64312, 64316), (64318, 64318), (64320, 64321), 
   (64323, 64324), (64326, 64433), (64467, 64829), (64848, 64911), (64914, 64967), 
   (65008, 65019), (65136, 65140), (65142, 65276), (65296, 65305), (65313, 65338), 
   (65345, 65370), (65382, 65470), (65474, 65479), (65482, 65487), (65490, 65495), 
   (65498, 65500), (65536, 65547), (65549, 65574), (65576, 65594), (65596, 65597), 
   (65599, 65613), (65616, 65629), (65664, 65786), (65799, 65843), (65856, 65912), 
   (65930, 65931), (66176, 66204), (66208, 66256), (66273, 66299), (66304, 66339), 
   (66349, 66378), (66384, 66421), (66432, 66461), (66464, 66499), (66504, 66511), 
   (66513, 66517), (66560, 66717), (66720, 66729), (66736, 66771), (66776, 66811), 
   (66816, 66855), (66864, 66915), (66928, 66938), (66940, 66954), (66956, 66962), 
   (66964, 66965), (66967, 66977), (66979, 66993), (66995, 67001), (67003, 67004), 
   (67072, 67382), (67392, 67413), (67424, 67431), (67456, 67461), (67463, 67504), 
   (67506, 67514), (67584, 67589), (67592, 67592), (67594, 67637), (67639, 67640), 
   (67644, 67644), (67647, 67669), (67672, 67702), (67705, 67742), (67751, 67759), 
   (67808, 67826), (67828, 67829), (67835, 67867), (67872, 67897), (67968, 68023), 
   (68028, 68047), (68050, 68096), (68112, 68115), (68117, 68119), (68121, 68149), 
   (68160, 68168), (68192, 68222), (68224, 68255), (68288, 68295), (68297, 68324), 
   (68331, 68335), (68352, 68405), (68416, 68437), (68440, 68466), (68472, 68497), 
   (68521, 68527), (68608, 68680), (68736, 68786), (68800, 68850), (68858, 68899), 
   (68912, 68921), (69216, 69246), (69248, 69289), (69296, 69297), (69376, 69415), 
   (69424, 69445), (69457, 69460), (69488, 69505), (69552, 69579), (69600, 69622), 
   (69635, 69687), (69714, 69743), (69745, 69746), (69749, 69749), (69763, 69807), 
   (69840, 69864), (69872, 69881), (69891, 69926), (69942, 69951), (69956, 69956), 
   (69959, 69959), (69968, 70002), (70006, 70006), (70019, 70066), (70081, 70084), 
   (70096, 70106), (70108, 70108), (70113, 70132), (70144, 70161), (70163, 70187), 
   (70272, 70278), (70280, 70280), (70282, 70285), (70287, 70301), (70303, 70312), 
   (70320, 70366), (70384, 70393), (70405, 70412), (70415, 70416), (70419, 70440), 
   (70442, 70448), (70450, 70451), (70453, 70457), (70461, 70461), (70480, 70480), 
   (70493, 70497), (70656, 70708), (70727, 70730), (70736, 70745), (70751, 70753), 
   (70784, 70831), (70852, 70853), (70855, 70855), (70864, 70873), (71040, 71086), 
   (71128, 71131), (71168, 71215), (71236, 71236), (71248, 71257), (71296, 71338), 
   (71352, 71352), (71360, 71369), (71424, 71450), (71472, 71483), (71488, 71494), 
   (71680, 71723), (71840, 71922), (71935, 71942), (71945, 71945), (71948, 71955), 
   (71957, 71958), (71960, 71983), (71999, 71999), (72001, 72001), (72016, 72025), 
   (72096, 72103), (72106, 72144), (72161, 72161), (72163, 72163), (72192, 72192), 
   (72203, 72242), (72250, 72250), (72272, 72272), (72284, 72329), (72349, 72349), 
   (72368, 72440), (72704, 72712), (72714, 72750), (72768, 72768), (72784, 72812), 
   (72818, 72847), (72960, 72966), (72968, 72969), (72971, 73008), (73030, 73030), 
   (73040, 73049), (73056, 73061), (73063, 73064), (73066, 73097), (73112, 73112), 
   (73120, 73129), (73440, 73458), (73648, 73648), (73664, 73684), (73728, 74649), 
   (74752, 74862), (74880, 75075), (77712, 77808), (77824, 78894), (82944, 83526), 
   (92160, 92728), (92736, 92766), (92768, 92777), (92784, 92862), (92864, 92873), 
   (92880, 92909), (92928, 92975), (92992, 92995), (93008, 93017), (93019, 93025), 
   (93027, 93047), (93053, 93071), (93760, 93846), (93952, 94026), (94032, 94032), 
   (94099, 94111), (94176, 94177), (94179, 94179), (94208, 100343), (100352, 101589), 
   (101632, 101640), (110576, 110579), (110581, 110587), (110589, 110590), (110592, 110882), 
   (110928, 110930), (110948, 110951), (110960, 111355), (113664, 113770), (113776, 113788), 
   (113792, 113800), (113808, 113817), (119520, 119539), (119648, 119672), (119808, 119892), 
   (119894, 119964), (119966, 119967), (119970, 119970), (119973, 119974), (119977, 119980), 
   (119982, 119993), (119995, 119995), (119997, 120003), (120005, 120069), (120071, 120074), 
   (120077, 120084), (120086, 120092), (120094, 120121), (120123, 120126), (120128, 120132), 
   (120134, 120134), (120138, 120144), (120146, 120485), (120488, 120512), (120514, 120538), 
   (120540, 120570), (120572, 120596), (120598, 120628), (120630, 120654), (120656, 120686), 
   (120688, 120712), (120714, 120744), (120746, 120770), (120772, 120779), (120782, 120831), 
   (122624, 122654), (123136, 123180), (123191, 123197), (123200, 123209), (123214, 123214), 
   (123536, 123565), (123584, 123627), (123632, 123641), (124896, 124902), (124904, 124907), 
   (124909, 124910), (124912, 124926), (124928, 125124), (125127, 125135), (125184, 125251), 
   (125259, 125259), (125264, 125273), (126065, 126123), (126125, 126127), (126129, 126132), 
   (126209, 126253), (126255, 126269), (126464, 126467), (126469, 126495), (126497, 126498), 
   (126500, 126500), (126503, 126503), (126505, 126514), (126516, 126519), (126521, 126521), 
   (126523, 126523), (126530, 126530), (126535, 126535), (126537, 126537), (126539, 126539), 
   (126541, 126543), (126545, 126546), (126548, 126548), (126551, 126551), (126553, 126553), 
   (126555, 126555), (126557, 126557), (126559, 126559), (126561, 126562), (126564, 126564), 
   (126567, 126570), (126572, 126578), (126580, 126583), (126585, 126588), (126590, 126590), 
   (126592, 126601), (126603, 126619), (126625, 126627), (126629, 126633), (126635, 126651), 
   (127232, 127244), (130032, 130041), (131072, 173791), (173824, 177976), (177984, 178205), 
   (178208, 183969), (183984, 191456), (194560, 195101), (196608, 201546)]

/-- Membership in an ascending list of closed codepoint ranges. -/
def inRangesAsc (n : Nat) : List (Nat × Nat) → Bool
  | [] => false
  | (lo, hi) :: rest => if n < lo then false else if n ≤ hi then true else inRangesAsc n rest

/-- Python's regex class `\w` on text patterns: the underscore together
with every character that `str.isalnum()` accepts (Unicode letters,
decimal digits, and the other Unicode digit/numeric characters). -/
def isWordChar (c : Char) : Bool := c = '_' || inRangesAsc c.toNat pyWordRanges

/-- The type of single-position matchers. -/
def Matcher : Type := List Char → Option (List Char × List Char)

def pChar (x : Char) : Matcher := fun l =>
  match l with
  | [] => none
  | c :: r => if c = x then some ([c], r) else none

def pLit : List Char → Matcher
  | [], l => some ([], l)
  | _ :: _, [] => none
  | p :: ps, c :: l =>
    if c = p then (pLit ps l).map (fun tr => (c :: tr.1, tr.2)) else none

def pSpan (q : Char → Bool) : Matcher := fun l =>
  some (l.takeWhile q, l.dropWhile q)

def pSpan1 (q : Char → Bool) : Matcher := fun l =>
  if l.takeWhile q = [] then none else some (l.takeWhile q, l.dropWhile q)

def pSeq (p1 p2 : Matcher) : Matcher := fun l =>
  match p1 l with
  | none => none
  | some (t1, r1) =>
    match p2 r1 with
    | none => none
    | some (t2, r2) => some (t1 ++ t2, r2)

/-- The optional return-type group `(?:\w+\s+)?` before the opening brace:
with no leading word characters it matches empty; with a word run it must
be followed by at least one whitespace character (else both the group and
the empty alternative fail against the following `\{`). -/
def pOptTypeWord : Matcher := fun l =>
  if l.takeWhile isWordChar = [] then some ([], l)
  else
    if (l.dropWhile isWordChar).takeWhile pyIsSpace = [] then none
    else some (l.takeWhile isWordChar ++ (l.dropWhile isWordChar).takeWhile pyIsSpace,
      (l.dropWhile isWordChar).dropWhile pyIsSpace)

def matchFuncAt : Matcher :=
  pSeq (pLit "func".data)
    (pSeq (pSpan1 pyIsSpace)
      (pSeq (pSpan1 isWordChar)
        (pSeq (pSpan pyIsSpace)
          (pSeq (pChar '(')
            (pSeq (pSpan (fun c => !decide (c = ')')))
              (pSeq (pChar ')')
                (pSeq (pSpan pyIsSpace)
                  (pSeq pOptTypeWord
                    (pSeq (pChar '{')
                      (pSeq (pSpan (fun c => !decide (c = '}')))
                        (pChar '}')))))))))))

def matchTypeAt (kw : List Char) : Matcher :=
  pSeq (pLit "type".data)
    (pSeq (pSpan1 pyIsSpace)
      (pSeq (pSpan1 isWordChar)
        (pSeq (pSpan1 pyIsSpace)
          (pSeq (pLit kw)
            (pSeq (pSpan pyIsSpace)
              (pSeq (pChar '{')
                (pSeq (pSpan (fun c => !decide (c = '}')))
                  (pChar '}'))))))))

def matchIfaceAt : Matcher := matchTypeAt "interface".data

def matchStructAt : Matcher := matchTypeAt "struct".data

/-- `re.findall` for one pattern: scan left to right; on a match, emit it
and resume after it.  The fuel starts at the input length, which bounds the
number of scan steps. -/
def findallAux (m : Matcher) : Nat → List Char → List (List Char)
  | 0, _ => []
  | _ + 1, [] => []
  | fuel + 1, c :: rest =>
    match m (c :: rest) with
    | some (t, r) => t :: findallAux m fuel r
    | none => findallAux m fuel rest

def findallWith (m : Matcher) (l : List Char) : List (List Char) :=
  findallAux m l.length l

/-- `GoDataProcessor.extract_go_patterns`: function matches, then interface
matches, then struct matches. -/
def extract_go_patterns (code : List Char) : List (List Char) :=
  findallWith matchFuncAt code ++ findallWith matchIfaceAt code ++
    findallWith matchStructAt code

/-- A matcher only ever splits its input: the match is a literal initial
segment, the remainder the corresponding final segment. -/
def SplitsOK (m : Matcher) : Prop :=
  ∀ l t r, m l = some (t, r) → l = t ++ r

/-- A matcher never produces an empty match. -/
def NonNil (m : Matcher) : Prop :=
  ∀ l t r, m l = some (t, r) → t ≠ []

theorem splits_pChar (x : Char) : SplitsOK (pChar x) := by
  intro l t r h
  cases l with
  | nil => cases h
  | cons c l' =>
    simp only [pChar] at h
    split at h
    · injection h with h
      injection h with h1 h2
      subst h1
      subst h2
      rfl
    · cases h

theorem splits_pLit : ∀ pre, SplitsOK (pLit pre) := by
  intro pre
  induction pre with
  | nil =>
    intro l t r h
    simp only [pLit] at h
    injection h with h
    injection h with h1 h2
    subst h1; subst h2; rfl
  | cons p ps ih =>
    intro l t r h
    cases l with
    | nil => cases h
    | cons c l' =>
      simp only [pLit] at h
      split at h
      · cases hrec : pLit ps l' with
        | none => rw [hrec] at h; cases h
        | some tr =>
          rw [hrec] at h
          simp only [Option.map_some'] at h
          injection h with h
          injection h with h1 h2
          subst h1; subst h2
          have := ih l' tr.1 tr.2 (by rw [hrec])
          simp [this]
      · cases h

theorem splits_pSpan (q : Char → Bool) : SplitsOK (pSpan q) := by
  intro l t r h
  simp only [pSpan] at h
  injection h with h
  injection h with h1 h2
  subst h1; subst h2
  exact (List.takeWhile_append_dropWhile q l).symm

theorem splits_pSpan1 (q : Char → Bool) : SplitsOK (pSpan1 q) := by
  intro l t r h
  simp only [pSpan1] at h
  split at h
  · cases h
  · injection h with h
    injection h with h1 h2
    subst h1; subst h2
    exact (List.takeWhile_append_dropWhile q l).symm

theorem splits_pOptTypeWord : SplitsOK pOptTypeWord := by
  intro l t r h
  simp only [pOptTypeWord] at h
  split at h
  · injection h with h
    injection h with h1 h2
    subst h1; subst h2
    rfl
  · split at h
    · cases h
    · injection h with h
      injection h with h1 h2
      subst h1; subst h2
      rw [List.append_assoc, List.takeWhile_append_dropWhile,
        List.takeWhile_append_dropWhile]

theorem splits_pSeq {p1 p2 : Matcher} (h1 : SplitsOK p1) (h2 : SplitsOK p2) :
    SplitsOK (pSeq p1 p2) := by
  intro l t r h
  simp only [pSeq] at h
  split at h
  · cases h
  · next t1 r1 hm1 =>
    split at h
    · cases h
    · next t2 r2 hm2 =>
      injection h with h
      injection h with ht hr
      subst ht; subst hr
      rw [h1 l t1 r1 hm1, h2 r1 t2 r2 hm2, List.append_assoc]

theorem nonNil_pLit {pre : List Char} (hp : pre ≠ []) : NonNil (pLit pre) := by
  intro l t r h
  cases pre with
  | nil => exact absurd rfl hp
  | cons p ps =>
    cases l with
    | nil => cases h
    | cons c l' =>
      simp only [pLit] at h
      split at h
      · cases hrec : pLit ps l' with
        | none => rw [hrec] at h; cases h
        | some tr =>
          rw [hrec] at h
          simp only [Option.map_some'] at h
          injection h with h
          injection h with h1 _
          subst h1
          simp
      · cases h

theorem nonNil_pSeq_left {p1 p2 : Matcher} (h1 : NonNil p1) : NonNil (pSeq p1 p2) := by
  intro l t r h
  simp only [pSeq] at h
  split at h
  · cases h
  · next t1 r1 hm1 =>
    split at h
    · cases h
    · next t2 r2 hm2 =>
      injection h with h
      injection h with ht _
      subst ht
      have hne := h1 l t1 r1 hm1
      cases t1 with
      | nil => exact absurd rfl hne
      | cons x xs => simp

theorem splits_matchFuncAt : SplitsOK matchFuncAt :=
  splits_pSeq (splits_pLit _) (splits_pSeq (splits_pSpan1 _) (splits_pSeq (splits_pSpan1 _)
    (splits_pSeq (splits_pSpan _) (splits_pSeq (splits_pChar _) (splits_pSeq (splits_pSpan _)
      (splits_pSeq (splits_pChar _) (splits_pSeq (splits_pSpan _)
        (splits_pSeq splits_pOptTypeWord (splits_pSeq (splits_pChar _)
          (splits_pSeq (splits_pSpan _) (splits_pChar _)))))))))))

theorem splits_matchTypeAt (kw : List Char) : SplitsOK (matchTypeAt kw) :=
  splits_pSeq (splits_pLit _) (splits_pSeq (splits_pSpan1 _) (splits_pSeq (splits_pSpan1 _)
    (splits_pSeq (splits_pSpan1 _) (splits_pSeq (splits_pLit _) (splits_pSeq (splits_pSpan _)
      (splits_pSeq (splits_pChar _) (splits_pSeq (splits_pSpan _) (splits_pChar _))))))))

theorem nonNil_matchFuncAt : NonNil matchFuncAt :=
  nonNil_pSeq_left (nonNil_pLit (by decide))

theorem nonNil_matchTypeAt (kw : List Char) : NonNil (matchTypeAt kw) :=
  nonNil_pSeq_left (nonNil_pLit (by decide))

/-- All positions (suffixes) of the input at which the matcher succeeds,
with the matched text. -/
def occsOf (m : Matcher) : List Char → List (List Char)
  | [] => []
  | c :: rest =>
    (match m (c :: rest) with
     | some (t, _) => [t]
     | none => []) ++ occsOf m rest

theorem occsOf_nil_cons {m : Matcher} {c : Char} {rest : List Char}
    (h : occsOf m (c :: rest) = []) : m (c :: rest) = none ∧ occsOf m rest = [] := by
  simp only [occsOf] at h
  rcases List.append_eq_nil.mp h with ⟨h1, h2⟩
  refine ⟨?_, h2⟩
  cases hm : m (c :: rest) with
  | none => rfl
  | some tr =>
    rw [hm] at h1
    obtain ⟨t, r⟩ := tr
    cases h1

theorem occsOf_nil_append {m : Matcher} :
    ∀ {u l : List Char}, occsOf m (u ++ l) = [] → occsOf m l = [] := by
  intro u
  induction u with
  | nil => intro l h; exact h
  | cons c u' ih => intro l h; exact ih (occsOf_nil_cons h).2

theorem findallAux_of_occs_nil {m : Matcher} :
    ∀ (l : List Char) (fuel : Nat), occsOf m l = [] → findallAux m fuel l = [] := by
  intro l
  induction l with
  | nil => intro fuel _; cases fuel <;> rfl
  | cons c rest ih =>
    intro fuel h
    obtain ⟨hm, hrest⟩ := occsOf_nil_cons h
    cases fuel with
    | zero => rfl
    | succ fuel =>
      simp only [findallAux, hm]
      exact ih fuel hrest

theorem findallAux_of_occs_single {m : Matcher} (hs : SplitsOK m) (hn : NonNil m) :
    ∀ (l : List Char) (t : List Char) (fuel : Nat), occsOf m l = [t] →
      l.length ≤ fuel → findallAux m fuel l = [t] := by
  intro l
  induction l with
  | nil => intro t fuel h _; cases h
  | cons c rest ih =>
    intro t fuel h hfuel
    cases fuel with
    | zero => simp at hfuel
    | succ fuel =>
      cases hm : m (c :: rest) with
      | some tr =>
        obtain ⟨t', r⟩ := tr
        have hsplit := hs (c :: rest) t' r hm
        have hne := hn (c :: rest) t' r hm
        simp only [occsOf, hm] at h
        have ht : t' = t ∧ occsOf m rest = [] := by
          cases hocc : occsOf m rest with
          | nil => rw [hocc] at h; simpa using h
          | cons y ys =>
            rw [hocc] at h
            simp only [List.cons_append, List.cons.injEq] at h
            exact absurd h.2 (by simp)
        obtain ⟨ht', hrest⟩ := ht
        subst ht'
        simp only [findallAux, hm]
        have hr : occsOf m r = [] := by
          cases t' with
          | nil => exact absurd rfl hne
          | cons x xs =>
            injection hsplit with h1 h2
            rw [List.append_eq] at h2
            exact occsOf_nil_append (h2 ▸ hrest)
        rw [findallAux_of_occs_nil r fuel hr]
      | none =>
        simp only [occsOf, hm, List.nil_append] at h
        simp only [findallAux, hm]
        exact ih t fuel h (by simpa using Nat.le_of_succ_le_succ hfuel)

theorem append_eq_singleton_split {α : Type} {a b : List α} {t : α}
    (h : a ++ b = [t]) : (a = [t] ∧ b = []) ∨ (a = [] ∧ b = [t]) := by
  cases a with
  | nil => exact Or.inr ⟨rfl, by simpa using h⟩
  | cons x a' =>
    simp only [List.cons_append, List.cons.injEq] at h
    obtain ⟨hx, h2⟩ := h
    rcases List.append_eq_nil.mp h2 with ⟨ha, hb⟩
    exact Or.inl ⟨by rw [hx, ha], hb⟩

theorem splits_matchIfaceAt : SplitsOK matchIfaceAt := splits_matchTypeAt "interface".data

theorem nonNil_matchIfaceAt : NonNil matchIfaceAt := nonNil_matchTypeAt "interface".data

theorem splits_matchStructAt : SplitsOK matchStructAt := splits_matchTypeAt "struct".data

theorem nonNil_matchStructAt : NonNil matchStructAt := nonNil_matchTypeAt "struct".data

/-- C9: if the input contains exactly one position at which any of the
three shape matchers (function-like, interface-like, struct-like) succeeds,
the match there being `t` (a well-formed block, non-nested in the sense of
containing only its own opening brace), then `extract_go_patterns` returns
exactly `[t]`. -/
theorem extract_go_patterns_unique (code t : List Char)
    (hocc : occsOf matchFuncAt code ++ occsOf matchIfaceAt code ++
        occsOf matchStructAt code = [t])
    (hnn : (t.filter (fun c => decide (c = '{'))).length = 1) :
    extract_go_patterns code = [t] := by
  rcases append_eq_singleton_split hocc with ⟨hab, hc⟩ | ⟨hab, hc⟩
  · rcases append_eq_singleton_split hab with ⟨ha, hb⟩ | ⟨ha, hb⟩
    · unfold extract_go_patterns findallWith
      rw [findallAux_of_occs_single splits_matchFuncAt nonNil_matchFuncAt code t
            code.length ha (Nat.le_refl _),
          findallAux_of_occs_nil code code.length hb,
          findallAux_of_occs_nil code code.length hc]
      simp
    · unfold extract_go_patterns findallWith
      rw [findallAux_of_occs_nil code code.length ha,
          findallAux_of_occs_single splits_matchIfaceAt
            nonNil_matchIfaceAt code t code.length hb (Nat.le_refl _),
          findallAux_of_occs_nil code code.length hc]
      simp
  · rcases List.append_eq_nil.mp hab with ⟨ha, hb⟩
    unfold extract_go_patterns findallWith
    rw [findallAux_of_occs_nil code code.length ha,
        findallAux_of_occs_nil code code.length hb,
        findallAux_of_occs_single splits_matchStructAt
          nonNil_matchStructAt code t code.length hc (Nat.le_refl _)]
    simp

theorem extract_go_patterns_unique_witness :
    (occsOf matchFuncAt "a\nfunc f() {x}\nb".data ++
        occsOf matchIfaceAt "a\nfunc f() {x}\nb".data ++
        occsOf matchStructAt "a\nfunc f() {x}\nb".data = ["func f() {x}".data] ∧
      ("func f() {x}".data.filter (fun c => decide (c = '{'))).length = 1) ∧
    extract_go_patterns "a\nfunc f() {x}\nb".data = ["func f() {x}".data] :=
  ⟨⟨by decide, by decide⟩,
    extract_go_patterns_unique "a\nfunc f() {x}\nb".data "func f() {x}".data
      (by decide) (by decide)⟩
